import Mathlib

/-!
Verification of the ddelta binary delta codec (ddelta_generate.c / ddelta_apply.c).

The development is a shallow embedding of the two C translation units into Lean:
byte buffers become `List Nat` (each element a byte value), `off_t` quantities
become `Int`, unsigned 32-bit wire fields become `Nat` taken modulo 2^32 where
the code truncates, and the C `FILE` streams become explicit state that is
threaded through the functions.  Loops are translated into structural or
fuel-bounded recursions whose bodies follow the C statement by statement.

The repository ships only the two .c files; the shared header ddelta.h (magic
tag, the DDELTA_FLUSH sentinel and the entry-record struct) is not in the
sources, so those three items are modelled from the specification document, as
marked on their declarations below.
-/

namespace DDelta

/-- Wire modulus for unsigned 32-bit fields (2^32). -/
def MOD32 : Nat := 4294967296

/-- INT32_MAX, the size limit the generator enforces on both inputs. -/
def INT32MAX : Int := 2147483647

/-- Wrap-around semantics of storing an arbitrary integer into a signed 32-bit
field (two's complement). -/
def wrapS32 (v : Int) : Int := (v + 2147483648) % 4294967296 - 2147483648

/-- Modelled from the spec: ddelta.h is absent from the sources; the spec calls
DDELTA_FLUSH "a reserved signed-32 value, distinct from zero and from the
terminator", whose folded form is reserved.  INT32_MIN is the reserved value
compatible with that description (every seek the generator can compute lies in
(INT32_MIN, INT32_MAX]).  The proofs below only use that it is nonzero and that
the generator explicitly refuses to emit it as a normal seek. -/
def DDELTA_FLUSH : Int := -2147483648

/-- ddelta_to_unsigned from ddelta_generate.c: fold a signed 32-bit value into
its unsigned wire form; negative v becomes the two's-complement bit pattern
via the C expression `~(uint32_t)(-i) + 1`. -/
def ddelta_to_unsigned (i : Int) : Nat :=
  if 0 ≤ i then i.toNat % MOD32
  else (MOD32 - (-i).toNat % MOD32) % MOD32

/-- ddelta_from_unsigned from ddelta_apply.c: read back a folded seek value;
the C expression is `u & 0x80000000 ? -(int32_t) ~(u - 1) : (int32_t) u`, with
int32 stores wrapping. -/
def ddelta_from_unsigned (u : Nat) : Int :=
  let m := u % MOD32
  if 2147483648 ≤ m then wrapS32 (-(wrapS32 ((MOD32 : Int) - (m : Int))))
  else (m : Int)

/-! ## CRC-32 (zlib's crc32, bitwise form)

Both translation units call zlib's `crc32(init, buf, len)`.  The claims only
compare CRC values of equal byte sequences, so the exact polynomial never
matters to a proof, but the function is embedded concretely (reflected CRC-32,
polynomial 0xEDB88320) so that every definition stays executable. -/

/-- One step of the bitwise CRC-32 update. -/
def crcBit (c : Nat) : Nat :=
  if c % 2 = 1 then (c / 2) ^^^ 0xEDB88320 else c / 2

/-- Absorb one byte into the running (pre/post-conditioned) CRC register. -/
def crcByte (c b : Nat) : Nat :=
  crcBit (crcBit (crcBit (crcBit (crcBit (crcBit (crcBit (crcBit
    ((c ^^^ b % 256) % MOD32))))))))

/-- zlib crc32: condition the register, fold the bytes, uncondition. -/
def crc32 (init : Nat) (bs : List Nat) : Nat :=
  (bs.foldl crcByte (init ^^^ 0xFFFFFFFF)) ^^^ 0xFFFFFFFF

/-! ## Buffer primitives

Byte buffers are `List Nat`; `off_t` indices are `Int`.  A read through `idx`
returns 0 outside the physical buffer; all reads the C performs in the paths
the theorems cover are proved in bounds, so the default never shows. -/

/-- Read byte i of a buffer (out-of-range reads yield 0). -/
def idx (l : List Nat) (i : Int) : Nat := if 0 ≤ i then l.getD i.toNat 0 else 0

/-- The sub-list of bytes at offsets [a, b). -/
def slice (l : List Nat) (a b : Int) : List Nat := (l.take b.toNat).drop a.toNat

/-- Overwrite a buffer with xs starting at offset off, zero-filling any gap
and extending the buffer if needed (file writes through a seekable stream,
and the generator's realloc+memset+memcpy, both behave this way). -/
def writeAt (l : List Nat) (off : Nat) (xs : List Nat) : List Nat :=
  l.take off ++ List.replicate (off - l.length) 0 ++ xs ++ l.drop (off + xs.length)

/-! ## ddelta_generate.c: suffix-array search -/

/-- matchlen: length of the longest common prefix of two buffers. -/
def matchlen : List Nat → List Nat → Nat
  | a :: as, b :: bs => if a = b then matchlen as bs + 1 else 0
  | _, _ => 0

/-- The test `memcmp(a, b, MIN(|a|, |b|)) <= 0` used by search's bisection:
compare byte-wise over the shorter length, equal prefixes compare equal. -/
def memcmpLe : List Nat → List Nat → Bool
  | [], _ => true
  | _ :: _, [] => true
  | a :: as, b :: bs => if a < b then true else if b < a then false else memcmpLe as bs

/-- Full lexicographic order on byte strings: the order in which divsufsort
lists the suffixes of the old buffer (a proper prefix sorts first). -/
def lexLe : List Nat → List Nat → Bool
  | [], _ => true
  | _ :: _, [] => false
  | a :: as, b :: bs => if a < b then true else if b < a then false else lexLe as bs

/-- The suffix array the generator obtains from divsufsort (treated by the
spec as an external primitive producing a lexicographic suffix array over the
old buffer): the offsets 0..n-1 sorted by suffix order. -/
def suffixArray (buf : List Nat) : List Nat :=
  List.insertionSort (fun i j => lexLe (buf.drop i) (buf.drop j) = true)
    (List.range buf.length)

/-- Read entry k of the suffix array as an off_t. -/
def Iat (I : List Nat) (k : Int) : Int := (I.getD k.toNat 0 : Int)

/-- search from ddelta_generate.c: binary search for the suffix of buf with
the longest common prefix with q over the inclusive index range [st, en] of
the suffix array.  Returns (length, position).  The fuel argument is a model
artifact making the recursion structural: each call halves en - st, so the
fuel supplied by searchFull is never exhausted. -/
def search (I : List Nat) (buf : List Nat) (q : List Nat) :
    Nat → Int → Int → Int × Int
  | 0, _, _ => (0, 0)
  | fuel + 1, st, en =>
    if en - st < 2 then
      let x := matchlen (buf.drop (Iat I st).toNat) q
      let y := matchlen (buf.drop (Iat I en).toNat) q
      if (x : Int) > (y : Int) then ((x : Int), Iat I st)
      else ((y : Int), Iat I en)
    else
      let x := st + (en - st) / 2
      if memcmpLe (buf.drop (Iat I x).toNat) q then
        search I buf q fuel x en
      else
        search I buf q fuel st x

/-- search over the inclusive range [st, en], with enough fuel. -/
def searchFull (I : List Nat) (buf : List Nat) (q : List Nat) (st en : Int) :
    Int × Int :=
  search I buf q ((en - st).toNat + 1) st en

/-! ## ddelta_generate.c: the inner scan loop -/

/-- The oldscore catch-up loop
`for (; scsc < scan + len; scsc++) if (in range and bytes equal) oldscore++`,
run for the given number of steps; returns the final (scsc, oldscore). -/
def scoreAdd (buf nw : List Nat) (oldsize lastoffset : Int) :
    Nat → Int → Int → Int × Int
  | 0, scsc, oldscore => (scsc, oldscore)
  | steps + 1, scsc, oldscore =>
    let oldscore1 :=
      if scsc + lastoffset < oldsize ∧ idx buf (scsc + lastoffset) = idx nw scsc
      then oldscore + 1 else oldscore
    scoreAdd buf nw oldsize lastoffset steps (scsc + 1) oldscore1

/-- Context of one inner scan loop run (fixed for the duration of a block's
outer-loop iteration). -/
structure GenCtx where
  buf : List Nat
  nw : List Nat
  oldsize : Int
  scansize : Int
  lastoffset : Int
  I : List Nat
deriving Repr

/-- Mutable state of the inner scan loop. -/
structure ScanSt where
  scan : Int
  scsc : Int
  len : Int
  pos : Int
  oldscore : Int
  num8 : Nat
deriving Repr, DecidableEq

/-- How an inner scan loop run ended: the loop condition failed (atEnd), the
perfect-match break (len == oldscore != 0), the mismatch break
(len > oldscore + 8), or the stall-guard break (counter above 100). -/
inductive ExitKind where
  | atEnd
  | matchEq
  | bigLen
  | stall
deriving Repr, DecidableEq

/-- Result of one iteration of the inner scan loop body. -/
inductive ScanIterOut where
  | brk (k : ExitKind) (s : ScanSt)
  | step (s : ScanSt)
deriving Repr

/-- One iteration of the generator's inner scan loop (ddelta_generate.c lines
274-306), for a state with scan < scansize: save the previous len/oldscore/pos,
run search at the current scan, catch oldscore up over [scsc, scan+len), apply
the two break tests, otherwise decrement oldscore on an aligned match at scan,
update the stall counter and either break (counter > 100) or advance scan. -/
def scanIter (c : GenCtx) (s : ScanSt) : ScanIterOut :=
  let prevLen := s.len
  let prevOldscore := s.oldscore
  let prevPos := s.pos
  let res := searchFull c.I c.buf
      ((c.nw.take c.scansize.toNat).drop s.scan.toNat) 0 (c.oldsize - 1)
  let len := res.1
  let pos := res.2
  let sc := scoreAdd c.buf c.nw c.oldsize c.lastoffset
      ((s.scan + len - s.scsc).toNat) s.scsc s.oldscore
  let scsc := sc.1
  let oldscore := sc.2
  if (len = oldscore ∧ len ≠ 0) ∨ len > oldscore + 8 then
    .brk (if len = oldscore ∧ len ≠ 0 then .matchEq else .bigLen)
      { s with len := len, pos := pos, scsc := scsc, oldscore := oldscore }
  else
    let oldscore2 :=
      if s.scan + c.lastoffset < c.oldsize ∧
         idx c.buf (s.scan + c.lastoffset) = idx c.nw s.scan
      then oldscore - 1 else oldscore
    let cond := prevLen - 8 ≤ len ∧ len ≤ prevLen ∧
                prevOldscore - 8 ≤ oldscore2 ∧ oldscore2 ≤ prevOldscore ∧
                prevPos ≤ pos ∧ pos ≤ prevPos + 8 ∧
                oldscore2 ≤ len ∧ len ≤ oldscore2 + 8
    let num8 := if cond then s.num8 + 1 else 0
    if num8 > 100 then
      .brk .stall { scan := s.scan, scsc := scsc, len := len, pos := pos,
                    oldscore := oldscore2, num8 := num8 }
    else
      .step { scan := s.scan + 1, scsc := scsc, len := len, pos := pos,
              oldscore := oldscore2, num8 := num8 }

/-- The generator's inner scan loop: iterate scanIter from the given state
until a break fires or scan reaches scansize; returns the exit kind and the
final state.  The fuel makes the recursion structural: every non-breaking
iteration advances scan by one, so the fuel supplied by scanLoopFull is
never exhausted. -/
def scanLoop (c : GenCtx) : Nat → ScanSt → ExitKind × ScanSt
  | 0, s => (.atEnd, s)
  | fuel + 1, s =>
    if s.scan < c.scansize then
      match scanIter c s with
      | .brk k s1 => (k, s1)
      | .step s1 => scanLoop c fuel s1
    else (.atEnd, s)

/-- The inner scan loop, with enough fuel. -/
def scanLoopFull (c : GenCtx) (s : ScanSt) : ExitKind × ScanSt :=
  scanLoop c ((c.scansize - s.scan).toNat + 1) s

/-! ## ddelta_generate.c: match extension and record commit -/

/-- The forward-extension loop: m i tells whether old[lastpos+i] equals
new[lastscan+i]; run for the number of iterations the C loop condition
permits, tracking (i, s, Sf, lenf) and returning the final lenf. -/
def extFwd (m : Int → Bool) : Nat → Int → Int → Int → Int → Int
  | 0, _, _, _, lenf => lenf
  | steps + 1, i, s, sf, lenf =>
    let s1 := if m i then s + 1 else s
    let i1 := i + 1
    if s1 * 2 - i1 > sf * 2 - lenf then extFwd m steps i1 s1 s1 i1
    else extFwd m steps i1 s1 sf lenf

/-- The backward-extension loop, i counting 1, 2, …: m i tells whether
old[pos-i] equals new[scan-i]; returns the final lenb. -/
def extBwd (m : Int → Bool) : Nat → Int → Int → Int → Int → Int
  | 0, _, _, _, lenb => lenb
  | steps + 1, i, s, sb, lenb =>
    let s1 := if m i then s + 1 else s
    if s1 * 2 - i > sb * 2 - lenb then extBwd m steps (i + 1) s1 s1 i
    else extBwd m steps (i + 1) s1 sb lenb

/-- The overlap-resolution sweep, tracking (i, s, Ss, lens): mf i is the
forward-assigned byte comparison and mb i the backward-assigned one at offset
i; s gains on a forward match, loses on a backward match, and lens records
i+1 at each new strict peak of s.  Returns the final lens. -/
def extOvl (mf mb : Int → Bool) : Nat → Int → Int → Int → Int → Int
  | 0, _, _, _, lens => lens
  | steps + 1, i, s, ss, lens =>
    let s1 := if mf i then s + 1 else s
    let s2 := if mb i then s1 - 1 else s1
    if s2 > ss then extOvl mf mb steps (i + 1) s2 s2 (i + 1)
    else extOvl mf mb steps (i + 1) s2 ss lens

/-- Inputs of the commit computation (ddelta_generate.c lines 308-360): the
buffers and sizes plus the bracketing positions. -/
structure CommitIn where
  buf : List Nat
  nw : List Nat
  oldsize : Int
  scansize : Int
  lastscan : Int
  lastpos : Int
  scan : Int
  pos : Int
deriving Repr

/-- The byte comparison of the forward extension at offset i:
old[lastpos + i] == new[lastscan + i]. -/
def fwdMatch (ci : CommitIn) (i : Int) : Bool :=
  decide (idx ci.buf (ci.lastpos + i) = idx ci.nw (ci.lastscan + i))

/-- The byte comparison of the backward extension at offset i:
old[pos - i] == new[scan - i]. -/
def bwdMatch (ci : CommitIn) (i : Int) : Bool :=
  decide (idx ci.buf (ci.pos - i) = idx ci.nw (ci.scan - i))

/-- Number of iterations of the forward-extension loop, i.e. how long
`lastscan + i < scan && lastpos + i < oldsize` stays true from i = 0. -/
def fwdSteps (ci : CommitIn) : Nat :=
  (min (ci.scan - ci.lastscan) (ci.oldsize - ci.lastpos)).toNat

/-- lenf as computed by the forward-extension loop. -/
def genLenf0 (ci : CommitIn) : Int := extFwd (fwdMatch ci) (fwdSteps ci) 0 0 0 0

/-- Number of iterations of the backward-extension loop, i.e. how long
`scan >= lastscan + i && pos >= i` stays true from i = 1. -/
def bwdSteps (ci : CommitIn) : Nat := (min (ci.scan - ci.lastscan) ci.pos).toNat

/-- lenb as computed by the backward-extension loop (skipped, leaving 0, when
the block end was reached). -/
def genLenb0 (ci : CommitIn) : Int :=
  if ci.scan < ci.scansize then extBwd (bwdMatch ci) (bwdSteps ci) 1 0 0 0
  else 0

/-- The overlap between the two extensions,
(lastscan + lenf) - (scan - lenb). -/
def ovlAmount (ci : CommitIn) : Int :=
  (ci.lastscan + genLenf0 ci) - (ci.scan - genLenb0 ci)

/-- Byte comparison of the forward-assigned position at sweep offset i. -/
def ovlFwd (ci : CommitIn) (i : Int) : Bool :=
  decide (idx ci.nw (ci.lastscan + genLenf0 ci - ovlAmount ci + i) =
          idx ci.buf (ci.lastpos + genLenf0 ci - ovlAmount ci + i))

/-- Byte comparison of the backward-assigned position at sweep offset i. -/
def ovlBwd (ci : CommitIn) (i : Int) : Bool :=
  decide (idx ci.nw (ci.scan - genLenb0 ci + i) =
          idx ci.buf (ci.pos - genLenb0 ci + i))

/-- lens as computed by the overlap sweep. -/
def genLens (ci : CommitIn) : Int :=
  extOvl (ovlFwd ci) (ovlBwd ci) (ovlAmount ci).toNat 0 0 0 0

/-- Forward extension, backward extension (skipped when scan == scansize) and
overlap resolution (entered when lastscan + lenf > scan - lenb, applying
lenf += lens - overlap and lenb -= lens), producing the committed
(lenf, lenb). -/
def resolveExt (ci : CommitIn) : Int × Int :=
  if ovlAmount ci > 0 then
    (genLenf0 ci + genLens ci - ovlAmount ci, genLenb0 ci - genLens ci)
  else (genLenf0 ci, genLenb0 ci)

/-- Error kinds of ddelta_generate (fuelOut is a model-only marker for
exhausted loop fuel; the C loops terminate, so no theorem depends on it). -/
inductive GErr where
  | newIo
  | oldIo
  | algo
  | patchIo
  | fuelOut
deriving Repr, DecidableEq

/-- Modelled from the spec: one wire record of the patch stream.  ddelta.h
(absent from the sources) declares the on-disk entry; per the spec the
oldcrc/newcrc fields of a flush marker overlay the diff/extra slots, so the
record carries two 32-bit fields f1 (diff, or oldcrc at a flush) and f2
(extra, or newcrc at a flush) plus the signed seek, and the payload bytes
that follow a normal entry (diff bytes then extra bytes). -/
structure PItem where
  f1 : Nat
  f2 : Nat
  seek : Int
  payload : List Nat
deriving Repr, DecidableEq

/-- The all-zero terminator record. -/
def termItem : PItem := { f1 := 0, f2 := 0, seek := 0, payload := [] }

/-- The diff payload loop: byte i is new[ls + i] - old[lp + i] truncated to
an unsigned char, emitted in ascending order of i. -/
def diffBytes (buf nw : List Nat) : Int → Int → Nat → List Nat
  | _, _, 0 => []
  | lp, ls, k + 1 =>
    (((idx nw ls : Int) - (idx buf lp : Int)) % 256).toNat ::
      diffBytes buf nw (lp + 1) (ls + 1) k

/-- Commit one match (ddelta_generate.c lines 308-398): resolve the
extensions, fail with ALGO if the post-condition or a wire-size check fails
or the computed seek collides with the flush sentinel, otherwise produce the
record with its payload (diff bytes new-old mod 256, then extra bytes
verbatim) and return it together with (lenf, lenb). -/
def commitStep (ci : CommitIn) : Except GErr (PItem × Int × Int) :=
  let r := resolveExt ci
  let lenf := r.1
  let lenb := r.2
  if lenf < 0 ∨ (ci.scan - lenb) - (ci.lastscan + lenf) < 0 then .error .algo
  else
    let diffv := lenf
    let extrav := (ci.scan - lenb) - (ci.lastscan + lenf)
    let seekv := (ci.pos - lenb) - (ci.lastpos + lenf)
    if diffv % (MOD32 : Int) ≠ diffv ∨ extrav % (MOD32 : Int) ≠ extrav ∨
       wrapS32 seekv = DDELTA_FLUSH ∨ wrapS32 seekv ≠ seekv then .error .algo
    else
      .ok ({ f1 := diffv.toNat, f2 := extrav.toNat, seek := seekv,
             payload :=
               diffBytes ci.buf ci.nw ci.lastpos ci.lastscan lenf.toNat ++
               slice ci.nw (ci.lastscan + lenf) (ci.scan - lenb) },
           lenf, lenb)

/-- A small concrete inner-loop context (old = [1], new = [0,0,0]) used by
witness theorems. -/
def exGenCtx : GenCtx :=
  { buf := [1], nw := [0, 0, 0], oldsize := 1, scansize := 3, lastoffset := 0,
    I := [0] }

/-- A small concrete inner-loop state used by witness theorems. -/
def exScanSt : ScanSt :=
  { scan := 0, scsc := 0, len := 0, pos := 0, oldscore := 0, num8 := 0 }

/-- A small concrete commit input (old = [1,2], new = [1,3], the commit at
the end of the scan) used by witness theorems. -/
def exCommitIn : CommitIn :=
  { buf := [1, 2], nw := [1, 3], oldsize := 2, scansize := 2,
    lastscan := 0, lastpos := 0, scan := 2, pos := 1 }

/-- Mutable state of the generator driver across outer-loop iterations. -/
structure GenSt where
  scan : Int
  len : Int
  pos : Int
  lastscan : Int
  lastpos : Int
  lastoffset : Int
  oldcrc : Nat
  newcrc : Nat
  patch : List PItem
  exits : List (ExitKind × Bool)
deriving Repr

/-- The generator's per-block outer loop (ddelta_generate.c lines 265-399):
while scan < scansize, run the inner scan loop from scan+len, and if
len != oldscore or the block end was reached, commit a record, update the
running CRCs over the consumed old slice and produced new slice, and advance
(lastscan, lastpos, lastoffset).  The exits list records each inner-loop exit
kind and whether it was followed by a commit (instrumentation only). -/
def outerLoop (buf nw : List Nat) (oldsize scansize : Int) (I : List Nat) :
    Nat → GenSt → Except GErr GenSt
  | 0, _ => .error .fuelOut
  | fuel + 1, st =>
    if st.scan < scansize then
      let c : GenCtx := { buf := buf, nw := nw, oldsize := oldsize,
                          scansize := scansize, lastoffset := st.lastoffset,
                          I := I }
      let s0 : ScanSt := { scan := st.scan + st.len, scsc := st.scan + st.len,
                           len := st.len, pos := st.pos, oldscore := 0,
                           num8 := 0 }
      let ks := scanLoopFull c s0
      let k := ks.1
      let s1 := ks.2
      if s1.len ≠ s1.oldscore ∨ s1.scan = scansize then
        match commitStep { buf := buf, nw := nw, oldsize := oldsize,
                           scansize := scansize, lastscan := st.lastscan,
                           lastpos := st.lastpos, scan := s1.scan,
                           pos := s1.pos } with
        | .error e => .error e
        | .ok (item, lenf, lenb) =>
          outerLoop buf nw oldsize scansize I fuel
            { scan := s1.scan, len := s1.len, pos := s1.pos,
              lastscan := s1.scan - lenb, lastpos := s1.pos - lenb,
              lastoffset := s1.pos - s1.scan,
              oldcrc := crc32 st.oldcrc (slice buf st.lastpos (st.lastpos + lenf)),
              newcrc := crc32 st.newcrc (slice nw st.lastscan (s1.scan - lenb)),
              patch := st.patch ++ [item],
              exits := st.exits ++ [(k, true)] }
      else
        outerLoop buf nw oldsize scansize I fuel
          { st with scan := s1.scan, len := s1.len, pos := s1.pos,
                    exits := st.exits ++ [(k, false)] }
    else .ok st

/-- Per-block generator state: the (mutable) old buffer, its logical size,
the scan limit of the current block, and the driver state. -/
structure BlockSt where
  buf : List Nat
  oldsize : Int
  scansize : Int
  g : GenSt
deriving Repr

/-- The block loop (the next: label of ddelta_generate.c): reset len and the
CRCs, rebuild the suffix array, run the block's outer loop, emit the flush
record, and either copy the scanned tail of new over old and grow to the next
block, or emit the terminator. -/
def blockLoop (nw : List Nat) (newsize bsz : Int) :
    Nat → BlockSt → Except GErr (List PItem × List (ExitKind × Bool))
  | 0, _ => .error .fuelOut
  | fuel + 1, b =>
    let I := suffixArray b.buf
    match outerLoop b.buf nw b.oldsize b.scansize I (b.scansize.toNat + 2)
        { b.g with len := 0, oldcrc := 0, newcrc := 0 } with
    | .error e => .error e
    | .ok st1 =>
      let flushItem : PItem := { f1 := st1.oldcrc, f2 := st1.newcrc,
                                 seek := DDELTA_FLUSH, payload := [] }
      if st1.scan < newsize then
        blockLoop nw newsize bsz fuel
          { buf := writeAt b.buf (b.scansize - bsz).toNat
                     (slice nw (b.scansize - bsz) b.scansize),
            oldsize := max b.oldsize b.scansize,
            scansize := min (b.scansize + bsz) newsize,
            g := { st1 with patch := st1.patch ++ [flushItem] } }
      else
        .ok (st1.patch ++ [flushItem, termItem], st1.exits)

/-- ddelta_generate: read both inputs (sizes capped at INT32_MAX), choose the
first block's scansize from blocksize, and run the block loop.  Returns the
header's new_file_size together with the record stream (and the inner-loop
exit instrumentation). -/
def ddelta_generate (old nw : List Nat) (bsz : Int) :
    Except GErr (Nat × List PItem × List (ExitKind × Bool)) :=
  let newsize : Int := nw.length
  if newsize > INT32MAX then .error .newIo
  else
    let oldsize : Int := old.length
    if oldsize > INT32MAX then .error .oldIo
    else
      let scansize := if bsz > 0 then min bsz newsize else newsize
      match blockLoop nw newsize bsz (newsize.toNat + 2)
          { buf := old, oldsize := oldsize, scansize := scansize,
            g := { scan := 0, len := 0, pos := 0, lastscan := 0, lastpos := 0,
                   lastoffset := 0, oldcrc := 0, newcrc := 0, patch := [],
                   exits := [] } } with
      | .error e => .error e
      | .ok p => .ok (newsize.toNat, p.1, p.2)

/-! ## ddelta_apply.c

The applier drives three streams: the patch (consumed here as the structured
record list the generator produced), the seekable old stream (a buffer plus a
cursor; POSIX fseek fails when the resulting position would be negative and
succeeds beyond EOF), and the destination.  In directory mode the destination
is the temp file ddelta.tmp whose content is `out`, plus the checkpoint store
`backups`, a finite map from the decimal newcrc filename to file content.
fflush/fsync/fclose have no observable effect in the model and are dropped;
apply_diff's 32 KiB chunking is flattened (CRC chaining over concatenation
makes the chunked and the flat computation equal). -/

/-- Error kinds of ddelta_apply. -/
inductive AErr where
  | patchIo
  | oldIo
  | newIo
  | patchShort
deriving Repr, DecidableEq

/-- Remove a file from the checkpoint directory (unlink). -/
def fsErase (m : List (Nat × List Nat)) (k : Nat) : List (Nat × List Nat) :=
  m.filter (fun e => e.1 ≠ k)

/-- State of a run of ddelta_apply: the old stream (content and cursor), the
bytes written so far, the running oldcrc, the destination/temp file content,
whether the temp file currently exists, the checkpoint store, and (model
instrumentation) the per-flush CRC trace
(applier oldcrc, entry oldcrc, restore crc, entry newcrc). -/
structure ApSt where
  old : List Nat
  opos : Int
  written : Nat
  oldcrc : Nat
  out : List Nat
  tmpExists : Bool
  backups : List (Nat × List Nat)
  trace : List (Nat × Nat × Nat × Nat)
deriving Repr

/-- Initial applier state for an old stream (fresh destination, empty
checkpoint directory). -/
def initSt (old : List Nat) : ApSt :=
  { old := old, opos := 0, written := 0, oldcrc := 0, out := [],
    tmpExists := true, backups := [], trace := [] }

/-- copy_file from ddelta_apply.c: record the old stream's offset, seek to
start, copy the backup's bytes into the old stream over [start, end) while
extending the CRC, flush and fsync, and seek back to the recorded offset.
Returns the rewritten stream, the restored cursor and the CRC.  A short
backup makes the chunked fread fail (NEW_IO); a negative start makes the
initial fseek fail (OLD_IO). -/
def copyFile (bak old : List Nat) (opos start : Int) (endv : Nat)
    (crc0 : Nat) : Except AErr (List Nat × Int × Nat) :=
  let origin := opos
  if start < 0 then .error .oldIo
  else
    let count := ((endv : Int) - start).toNat
    if bak.length < count then .error .newIo
    else
      .ok (writeAt old start.toNat (bak.take count), origin,
           crc32 crc0 (bak.take count))

/-- ddelta_apply's record loop (ddelta_apply.c lines 230-297).  dirMode tells
whether the destination is a directory (temp file plus checkpoints) or a
plain file; hdrSize is the header's new_file_size.  Returns the final status
together with the final state (the C function's file-system effects persist
whether or not it fails, so the state is returned on every path). -/
def ddelta_apply (dirMode : Bool) (hdrSize : Nat) :
    List PItem → ApSt → Except AErr Unit × ApSt
  | [], st => (.error .patchIo, st)
  | it :: rest, st =>
    if it.f1 = 0 ∧ it.f2 = 0 ∧ it.seek = 0 then
      ((if st.written = hdrSize then .ok () else .error .patchShort),
       if dirMode then { st with tmpExists := false } else st)
    else if it.seek = DDELTA_FLUSH then
      if dirMode = false then ddelta_apply dirMode hdrSize rest st
      else
        let start : Int := (st.written : Int) - st.out.length
        let backups1 :=
          if st.oldcrc = it.f1 then (it.f2, st.out) :: fsErase st.backups it.f2
          else st.backups
        let tmpAfter := if st.oldcrc = it.f1 then false else true
        match backups1.lookup it.f2 with
        | some bak =>
          match copyFile bak st.old st.opos start st.written 0 with
          | .error e =>
            (.error e, { st with backups := backups1, tmpExists := tmpAfter })
          | .ok (old1, pos1, newcrc) =>
            if newcrc ≠ it.f2 then
              (.error .newIo,
               { st with old := old1, opos := pos1,
                         backups := backups1, tmpExists := tmpAfter })
            else
              ddelta_apply dirMode hdrSize rest
                { st with
                  old := old1, opos := pos1,
                  backups := fsErase backups1 it.f2,
                  out := [], tmpExists := true, oldcrc := 0,
                  trace := st.trace ++ [(st.oldcrc, it.f1, newcrc, it.f2)] }
        | none =>
          ddelta_apply dirMode hdrSize rest
            { st with
              backups := backups1, out := [], tmpExists := true,
              oldcrc := 0,
              trace := st.trace ++ [(st.oldcrc, it.f1, it.f2, it.f2)] }
    else
      if it.payload.length < it.f1 then (.error .patchIo, st)
      else if st.opos < 0 ∨ (st.opos + it.f1) > st.old.length then
        (.error .oldIo, st)
      else
        let oldBytes := (st.old.drop st.opos.toNat).take it.f1
        let addOut := List.zipWith (fun o p => (o + p) % 256) oldBytes
            (it.payload.take it.f1)
        let crc1 := crc32 st.oldcrc oldBytes
        if (it.payload.drop it.f1).length < it.f2 then (.error .patchIo, st)
        else
          let extraOut := (it.payload.drop it.f1).take it.f2
          let npos := st.opos + it.f1 + it.seek
          if npos < 0 then (.error .oldIo, st)
          else
            ddelta_apply dirMode hdrSize rest
              { st with
                opos := npos, oldcrc := crc1,
                out := st.out ++ addOut ++ extraOut,
                written := st.written + it.f1 + it.f2 }

/-! ## Specification-side definitions for the simulation proof -/

/-- Indicator of an aligned byte match at position x: old[x + off] is in
range and equals new[x] (the condition of both the oldscore increment and
the oldscore decrement). -/
def bitv (buf nw : List Nat) (n off x : Int) : Int :=
  if x + off < n ∧ idx buf (x + off) = idx nw x then 1 else 0

/-- Number of positions x in [a, a + k) at which old[x + off] matches
new[x] — the quantity the scan loop's oldscore bookkeeping tracks. -/
def cntm (buf nw : List Nat) (n off a : Int) : Nat → Int
  | 0 => 0
  | k + 1 => cntm buf nw n off a k + bitv buf nw n off (a + k)

/-- cntm over the half-open interval [a, b). -/
def cnt2 (buf nw : List Nat) (n off a b : Int) : Int :=
  cntm buf nw n off a ((b - a).toNat)

/-- Simulation invariant between the generator's outer-loop state and the
applier's state inside one block; n is the logical oldsize (= buffer
length), blockStart the new-file offset at which the block began. -/
def InvO (buf nw : List Nat) (n scansize blockStart : Int) (st : GenSt)
    (ast : ApSt) : Prop :=
  ast.old = buf ∧
  ast.opos = st.lastpos ∧
  (ast.written : Int) = st.lastscan ∧
  ast.out = slice nw blockStart st.lastscan ∧
  ast.oldcrc = st.oldcrc ∧
  ast.backups = [] ∧
  ast.tmpExists = true ∧
  st.newcrc = crc32 0 (slice nw blockStart st.lastscan) ∧
  st.lastoffset = st.lastpos - st.lastscan ∧
  0 ≤ blockStart ∧ blockStart ≤ st.lastscan ∧
  st.lastscan ≤ st.scan ∧ st.scan ≤ scansize ∧
  (st.scan < scansize → st.scan + st.len ≤ scansize) ∧
  (st.scan = scansize → st.lastscan = scansize) ∧
  0 ≤ st.len ∧
  0 ≤ st.lastpos ∧ st.lastpos ≤ n ∧
  0 ≤ st.pos ∧ st.pos + st.len ≤ n

/-- Simulation invariant between blocks (at the next: label, before the
per-block resets). -/
def InvB (nw : List Nat) (newsize bsz : Int) (b : BlockSt) (ast : ApSt) :
    Prop :=
  ast.old = b.buf ∧
  ((b.buf.length : Int)) = b.oldsize ∧
  ast.opos = b.g.lastpos ∧
  (ast.written : Int) = b.g.lastscan ∧
  b.g.scan = b.g.lastscan ∧
  ast.out = [] ∧ ast.oldcrc = 0 ∧
  ast.backups = [] ∧ ast.tmpExists = true ∧
  b.buf.take (b.g.lastscan).toNat = nw.take (b.g.lastscan).toNat ∧
  b.scansize = (if bsz > 0 then min (b.g.lastscan + bsz) newsize
                else newsize) ∧
  b.g.lastoffset = b.g.lastpos - b.g.lastscan ∧
  0 ≤ b.g.lastscan ∧ b.g.lastscan ≤ b.scansize ∧ b.scansize ≤ newsize ∧
  b.g.lastscan ≤ b.oldsize ∧
  0 ≤ b.g.lastpos ∧ b.g.lastpos ≤ b.oldsize ∧
  0 ≤ b.g.pos ∧ b.g.pos ≤ b.oldsize ∧
  b.oldsize ≤ INT32MAX ∧
  newsize = (nw.length : Int)

/-! ## Helper lemmas -/

/-- Chaining CRCs over concatenation: feeding ys after xs equals restarting
from the intermediate value, which is how both C files accumulate their
running CRCs block by block. -/
theorem crc32_append (init : Nat) (xs ys : List Nat) :
    crc32 (crc32 init xs) ys = crc32 init (xs ++ ys) := by
  unfold crc32
  rw [List.foldl_append, Nat.xor_cancel_right]

/-- A non-breaking iteration of the inner scan loop advances scan by one. -/
theorem scanIter_step_scan (c : GenCtx) (s s1 : ScanSt)
    (h : scanIter c s = .step s1) : s1.scan = s.scan + 1 := by
  unfold scanIter at h
  dsimp only at h
  split_ifs at h
  all_goals first
  | exact ScanIterOut.noConfusion h
  | (injection h with h1; subst h1; rfl)

/-! ### Buffer lemmas -/

/-- slice as take-after-drop. -/
theorem slice_eq (l : List Nat) (a b : Int) (h : 0 ≤ a) :
    slice l a b = (l.drop a.toNat).take ((b - a).toNat) := by
  unfold slice
  rw [List.drop_take]
  congr 1
  omega

/-- Adjacent slices concatenate. -/
theorem slice_append_slice (l : List Nat) (a b c : Int)
    (h0 : 0 ≤ a) (h1 : a ≤ b) (h2 : b ≤ c) :
    slice l a b ++ slice l b c = slice l a c := by
  rw [slice_eq l a b h0, slice_eq l b c (by omega), slice_eq l a c h0]
  rw [show (c - a).toNat = (b - a).toNat + (c - b).toNat by omega]
  rw [List.take_add]
  congr 2
  rw [List.drop_drop]
  congr 1
  omega

/-- An empty slice. -/
theorem slice_self (l : List Nat) (a : Int) : slice l a a = [] := by
  unfold slice
  refine List.drop_eq_nil_of_le ?_
  simp [List.length_take]

/-- Length of a slice inside the buffer. -/
theorem slice_length (l : List Nat) (a b : Int) (h0 : 0 ≤ a) (h1 : a ≤ b)
    (h2 : b ≤ (l.length : Int)) :
    ((slice l a b).length : Int) = b - a := by
  unfold slice
  simp only [List.length_drop, List.length_take]
  omega

/-- Length of writeAt: the buffer grows exactly as far as the write
reaches. -/
theorem writeAt_length (l : List Nat) (off : Nat) (xs : List Nat) :
    (writeAt l off xs).length = max l.length (off + xs.length) := by
  unfold writeAt
  simp only [List.length_append, List.length_take, List.length_replicate,
    List.length_drop]
  omega

/-- writeAt does not disturb the prefix before the write offset. -/
theorem writeAt_take_prefix (l : List Nat) (off : Nat) (xs : List Nat)
    (h : off ≤ l.length) :
    (writeAt l off xs).take off = l.take off := by
  unfold writeAt
  rw [show off - l.length = 0 by omega]
  simp only [List.replicate_zero, List.append_nil]
  rw [List.append_assoc]
  refine List.take_left' ?_
  rw [List.length_take]
  omega

/-- Reading back the write window and its prefix. -/
theorem writeAt_take_full (l : List Nat) (off : Nat) (xs : List Nat)
    (h : off ≤ l.length) :
    (writeAt l off xs).take (off + xs.length) = l.take off ++ xs := by
  unfold writeAt
  rw [show off - l.length = 0 by omega]
  simp only [List.replicate_zero, List.append_nil]
  refine List.take_left' ?_
  simp only [List.length_append, List.length_take]
  omega

/-- getD through drop-of-take. -/
theorem getD_drop_take (l : List Nat) (a b r : Nat) (h : a + r < b)
    (h2 : a + r < l.length) :
    ((l.take b).drop a).getD r 0 = l.getD (a + r) 0 := by
  have hl : r < ((l.take b).drop a).length := by
    simp only [List.length_drop, List.length_take]
    omega
  rw [List.getD_eq_getElem _ _ hl, List.getD_eq_getElem _ _ h2]
  simp [List.getElem_drop, List.getElem_take]

/-- getD through drop. -/
theorem getD_drop (l : List Nat) (a r : Nat) (h : a + r < l.length) :
    (l.drop a).getD r 0 = l.getD (a + r) 0 := by
  have hl : r < (l.drop a).length := by
    simp only [List.length_drop]
    omega
  rw [List.getD_eq_getElem _ _ hl, List.getD_eq_getElem _ _ h]
  simp [List.getElem_drop]

/-- A byte-wise modular add undoes the generator's diff-byte subtraction. -/
theorem byte_add_recover (o n : Nat) (h : n < 256) :
    (o + (((n : Int) - (o : Int)) % 256).toNat) % 256 = n := by omega

/-- The diff payload has exactly the requested length. -/
theorem diffBytes_length (buf nw : List Nat) :
    ∀ (k : Nat) (lp ls : Int), (diffBytes buf nw lp ls k).length = k := by
  intro k
  induction k with
  | zero => intro lp ls; rfl
  | succ m ih =>
    intro lp ls
    unfold diffBytes
    simp only [List.length_cons, ih]

/-- The applier's pairwise add over the old slice and the diff payload
reconstructs the corresponding slice of new. -/
theorem diff_payload_recovers (buf nw : List Nat) (hbyte : ∀ b ∈ nw, b < 256) :
    ∀ (k : Nat) (lp ls : Int), 0 ≤ lp → 0 ≤ ls →
    lp.toNat + k ≤ buf.length → ls.toNat + k ≤ nw.length →
    List.zipWith (fun o p => (o + p) % 256)
      ((buf.drop lp.toNat).take k) (diffBytes buf nw lp ls k) =
    (nw.drop ls.toNat).take k := by
  intro k
  induction k with
  | zero => intro lp ls _ _ _ _; simp [diffBytes]
  | succ m ih =>
    intro lp ls hlp hls hbl hnl
    have hb1 : lp.toNat < buf.length := by omega
    have hn1 : ls.toNat < nw.length := by omega
    rw [List.drop_eq_getElem_cons hb1, List.drop_eq_getElem_cons hn1]
    unfold diffBytes
    simp only [List.take_succ_cons, List.zipWith_cons_cons]
    have ho : idx buf lp = buf[lp.toNat] := by
      unfold idx
      rw [if_pos hlp, List.getD_eq_getElem _ _ hb1]
    have hn : idx nw ls = nw[ls.toNat] := by
      unfold idx
      rw [if_pos hls, List.getD_eq_getElem _ _ hn1]
    rw [ho, hn]
    have htl := ih (lp + 1) (ls + 1) (by omega) (by omega) (by omega)
      (by omega)
    rw [show (lp + 1).toNat = lp.toNat + 1 by omega,
        show (ls + 1).toNat = ls.toNat + 1 by omega] at htl
    rw [htl, byte_add_recover _ _ (hbyte _ (List.getElem_mem hn1))]

/-! ### Search lemmas -/

/-- matchlen never exceeds the first buffer. -/
theorem matchlen_le_left : ∀ a b : List Nat, matchlen a b ≤ a.length := by
  intro a
  induction a with
  | nil => intro b; cases b <;> simp [matchlen]
  | cons x xs ih =>
    intro b
    cases b with
    | nil => simp [matchlen]
    | cons y ys =>
      unfold matchlen
      split_ifs
      · simpa using ih ys
      · simp

/-- matchlen never exceeds the second buffer. -/
theorem matchlen_le_right : ∀ a b : List Nat, matchlen a b ≤ b.length := by
  intro a
  induction a with
  | nil => intro b; cases b <;> simp [matchlen]
  | cons x xs ih =>
    intro b
    cases b with
    | nil => simp [matchlen]
    | cons y ys =>
      unfold matchlen
      split_ifs
      · simpa using ih ys
      · simp

/-- Bytes under the match length agree. -/
theorem matchlen_matches : ∀ (a b : List Nat) (j : Nat),
    j < matchlen a b → a.getD j 0 = b.getD j 0 := by
  intro a
  induction a with
  | nil => intro b j h; cases b <;> simp [matchlen] at h
  | cons x xs ih =>
    intro b j h
    cases b with
    | nil => simp [matchlen] at h
    | cons y ys =>
      unfold matchlen at h
      split_ifs at h with he
      · cases j with
        | zero => simpa using he
        | succ m =>
          simp only [List.getD_cons_succ]
          exact ih ys m (by omega)
      · omega

/-- Equal heads give a match of length at least one. -/
theorem matchlen_head (x y : Nat) (a b : List Nat) (h : x = y) :
    1 ≤ matchlen (x :: a) (y :: b) := by
  unfold matchlen
  rw [if_pos h]
  omega

/-- Every suffix-array access stays below the given bound on entries. -/
theorem Iat_le (I : List Nat) (bound : Nat) (hI : ∀ x ∈ I, x < bound)
    (k : Int) : Iat I k ≤ (bound : Int) := by
  unfold Iat
  by_cases h : k.toNat < I.length
  · rw [List.getD_eq_getElem _ _ h]
    exact_mod_cast Nat.le_of_lt (hI _ (List.getElem_mem h))
  · rw [List.getD_eq_default _ _ (by omega)]
    exact_mod_cast Nat.zero_le bound

/-- The suffix array has one entry per suffix. -/
theorem suffixArray_length (buf : List Nat) :
    (suffixArray buf).length = buf.length := by
  unfold suffixArray
  rw [(List.perm_insertionSort _ _).length_eq, List.length_range]

/-- Suffix-array entries are suffix offsets. -/
theorem suffixArray_mem (buf : List Nat) :
    ∀ x ∈ suffixArray buf, x < buf.length := by
  intro x hx
  have := (List.perm_insertionSort
    (fun i j => lexLe (buf.drop i) (buf.drop j) = true)
    (List.range buf.length)).mem_iff.mp hx
  exact List.mem_range.mp this

/-- search returns the match length at the position it reports, and that
position is a suffix-array entry in the searched range. -/
theorem search_spec (I buf q : List Nat) :
    ∀ (fuel : Nat) (st en : Int), 0 ≤ st → st ≤ en →
    (en - st).toNat < fuel →
    ∃ k : Int, st ≤ k ∧ k ≤ en ∧
      search I buf q fuel st en =
        ((matchlen (buf.drop (Iat I k).toNat) q : Int), Iat I k) := by
  intro fuel
  induction fuel with
  | zero => intro st en h0 h1 h2; omega
  | succ n ih =>
    intro st en h0 h1 h2
    unfold search
    dsimp only
    split_ifs with hsml hxy
    · exact ⟨st, le_refl st, h1, rfl⟩
    · exact ⟨en, h1, le_refl en, rfl⟩
    · obtain ⟨k, hk1, hk2, hk3⟩ := ih (st + (en - st) / 2) en (by omega)
        (by omega) (by omega)
      exact ⟨k, by omega, hk2, hk3⟩
    · obtain ⟨k, hk1, hk2, hk3⟩ := ih st (st + (en - st) / 2) h0
        (by omega) (by omega)
      exact ⟨k, hk1, by omega, hk3⟩

/-- Properties of the searchFull result over the suffix array of buf: the
returned length is the match length at the returned position, and both are
bounded by the buffer and the query. -/
theorem searchFull_props (buf q : List Nat) (n len pos : Int)
    (hn : (buf.length : Int) = n)
    (hr : searchFull (suffixArray buf) buf q 0 (n - 1) = (len, pos)) :
    len = (matchlen (buf.drop pos.toNat) q : Int) ∧
    0 ≤ pos ∧ pos ≤ n ∧ 0 ≤ len ∧ pos + len ≤ n ∧
    len ≤ (q.length : Int) := by
  by_cases hz : n ≤ 0
  · have hbe : buf = [] := by
      have : buf.length = 0 := by omega
      exact List.length_eq_zero.mp this
    subst hbe
    have hn0 : n = 0 := by
      simp at hn
      omega
    subst hn0
    have hI : suffixArray ([] : List Nat) = [] := by rfl
    unfold searchFull search at hr
    rw [hI] at hr
    norm_num at hr
    have hm : matchlen [] q = 0 := by cases q <;> rfl
    have hIat : Iat ([] : List Nat) (-1) = 0 := by rfl
    rw [hm, hIat] at hr
    obtain ⟨hl, hp⟩ := hr
    subst hl
    subst hp
    refine ⟨?_, by omega, by omega, by omega, by omega,
      by exact_mod_cast Nat.zero_le _⟩
    simp [hm]
  · obtain ⟨k, hk1, hk2, hk3⟩ := search_spec (suffixArray buf) buf q
      ((n - 1 - 0).toNat + 1) 0 (n - 1) (le_refl 0) (by omega) (by omega)
    unfold searchFull at hr
    rw [hk3] at hr
    injection hr with h1 h2
    subst h1
    subst h2
    have hb := Iat_le (suffixArray buf) buf.length (suffixArray_mem buf) k
    have hml := matchlen_le_left (buf.drop (Iat (suffixArray buf) k).toNat) q
    rw [List.length_drop] at hml
    have hmr := matchlen_le_right (buf.drop (Iat (suffixArray buf) k).toNat) q
    have hpos : 0 ≤ Iat (suffixArray buf) k := by
      unfold Iat
      exact_mod_cast Nat.zero_le _
    refine ⟨rfl, hpos, by omega, by exact_mod_cast Nat.zero_le _, by omega,
      by exact_mod_cast hmr⟩

/-! ### Oldscore bookkeeping -/

/-- The match indicator is 0 or 1. -/
theorem bitv_cases (buf nw : List Nat) (n off x : Int) :
    bitv buf nw n off x = 0 ∨ bitv buf nw n off x = 1 := by
  unfold bitv
  split_ifs <;> simp

/-- The match count is nonnegative and at most the window size. -/
theorem cntm_bounds (buf nw : List Nat) (n off : Int) :
    ∀ (k : Nat) (a : Int),
      0 ≤ cntm buf nw n off a k ∧ cntm buf nw n off a k ≤ k := by
  intro k
  induction k with
  | zero => intro a; unfold cntm; omega
  | succ m ih =>
    intro a
    unfold cntm
    have h1 := ih a
    have h2 := bitv_cases buf nw n off (a + m)
    push_cast
    omega

/-- Splitting a count at an interior point. -/
theorem cntm_split (buf nw : List Nat) (n off : Int) :
    ∀ (k j : Nat) (a : Int),
      cntm buf nw n off a (j + k) =
        cntm buf nw n off a j + cntm buf nw n off (a + j) k := by
  intro k
  induction k with
  | zero =>
    intro j a
    rw [Nat.add_zero]
    simp [cntm]
  | succ m ih =>
    intro j a
    have h1 : j + (m + 1) = (j + m) + 1 := by omega
    rw [h1]
    simp only [cntm]
    rw [ih j a]
    have h2 : a + (j + m : Nat) = (a + j) + (m : Nat) := by push_cast; omega
    rw [h2]
    omega

/-- Peeling one position from the front of a count. -/
theorem cntm_shift (buf nw : List Nat) (n off : Int) (k : Nat) (a : Int) :
    cntm buf nw n off a (k + 1) =
      bitv buf nw n off a + cntm buf nw n off (a + 1) k := by
  have h := cntm_split buf nw n off k 1 a
  rw [show 1 + k = k + 1 by omega] at h
  rw [h]
  have h2 : cntm buf nw n off a 1 = bitv buf nw n off a := by
    simp only [cntm]
    norm_num
  rw [h2]
  norm_num

/-- cnt2 over adjacent intervals subtracts. -/
theorem cnt2_sub (buf nw : List Nat) (n off : Int) (C a b : Int)
    (h1 : C ≤ a) (h2 : a ≤ b) :
    cnt2 buf nw n off C b - cnt2 buf nw n off C a =
      cnt2 buf nw n off a b := by
  unfold cnt2
  have h3 : (b - C).toNat = (a - C).toNat + (b - a).toNat := by omega
  rw [h3, cntm_split]
  have h4 : C + ((a - C).toNat : Int) = a := by omega
  rw [h4]
  omega

/-- A single-position interval is the indicator. -/
theorem cnt2_one (buf nw : List Nat) (n off a : Int) :
    cnt2 buf nw n off a (a + 1) = bitv buf nw n off a := by
  unfold cnt2
  rw [show (a + 1 - a).toNat = 1 by omega]
  simp only [cntm]
  norm_num

/-- When every position of the window matches, the count is the window
size. -/
theorem cnt2_full (buf nw : List Nat) (n off : Int) :
    ∀ (k : Nat) (a : Int),
      (∀ j : Nat, j < k → bitv buf nw n off (a + j) = 1) →
      cntm buf nw n off a k = k := by
  intro k
  induction k with
  | zero => intro a _; rfl
  | succ m ih =>
    intro a hall
    unfold cntm
    rw [ih a (fun j hj => hall j (by omega)), hall m (by omega)]
    push_cast
    omega

/-- The oldscore catch-up loop advances scsc to its target and adds the
match count of the traversed window. -/
theorem scoreAdd_eq (buf nw : List Nat) (n off : Int) :
    ∀ (steps : Nat) (a o : Int),
      scoreAdd buf nw n off steps a o =
        (a + steps, o + cntm buf nw n off a steps) := by
  intro steps
  induction steps with
  | zero => intro a o; unfold scoreAdd cntm; norm_num
  | succ m ih =>
    intro a o
    unfold scoreAdd
    dsimp only
    rw [ih (a + 1)]
    rw [cntm_shift]
    have hb : (if a + off < n ∧ idx buf (a + off) = idx nw a then o + 1
        else o) = o + bitv buf nw n off a := by
      unfold bitv
      split_ifs <;> omega
    rw [hb]
    simp only [Prod.mk.injEq]
    constructor
    · push_cast; omega
    · omega

/-- One iteration of the inner scan loop, written out in terms of the
search result and the caught-up oldscore. -/
theorem scanIter_eq (c : GenCtx) (s : ScanSt) (len pos scsc oldscore : Int)
    (hsearch : searchFull c.I c.buf
      ((c.nw.take c.scansize.toNat).drop s.scan.toNat) 0 (c.oldsize - 1) =
      (len, pos))
    (hscore : scoreAdd c.buf c.nw c.oldsize c.lastoffset
      ((s.scan + len - s.scsc).toNat) s.scsc s.oldscore = (scsc, oldscore)) :
    scanIter c s =
      if (len = oldscore ∧ len ≠ 0) ∨ len > oldscore + 8 then
        .brk (if len = oldscore ∧ len ≠ 0 then .matchEq else .bigLen)
          { s with len := len, pos := pos, scsc := scsc,
                   oldscore := oldscore }
      else
        let oldscore2 := if s.scan + c.lastoffset < c.oldsize ∧
            idx c.buf (s.scan + c.lastoffset) = idx c.nw s.scan
          then oldscore - 1 else oldscore
        let cond := s.len - 8 ≤ len ∧ len ≤ s.len ∧
            s.oldscore - 8 ≤ oldscore2 ∧ oldscore2 ≤ s.oldscore ∧
            s.pos ≤ pos ∧ pos ≤ s.pos + 8 ∧
            oldscore2 ≤ len ∧ len ≤ oldscore2 + 8
        let num8 := if cond then s.num8 + 1 else 0
        if num8 > 100 then
          .brk .stall { scan := s.scan, scsc := scsc, len := len, pos := pos,
                        oldscore := oldscore2, num8 := num8 }
        else
          .step { scan := s.scan + 1, scsc := scsc, len := len, pos := pos,
                  oldscore := oldscore2, num8 := num8 } := by
  unfold scanIter
  dsimp only
  rw [hsearch]
  dsimp only
  rw [hscore]

/-- Full characterization of one inner scan loop run, for the simulation
proof: bounds on the exit state, the oldscore bookkeeping identity relative
to the loop's starting scan position C, and the facts each exit kind
guarantees. -/
theorem scanLoop_spec (c : GenCtx) (hIc : c.I = suffixArray c.buf)
    (hnc : (c.buf.length : Int) = c.oldsize)
    (hqn : c.scansize ≤ (c.nw.length : Int)) :
    ∀ (fuel : Nat) (s : ScanSt) (C : Int),
    (c.scansize - s.scan).toNat < fuel →
    0 ≤ s.scan → C ≤ s.scan → C ≤ s.scsc → s.scan ≤ c.scansize →
    s.oldscore = cnt2 c.buf c.nw c.oldsize c.lastoffset C s.scsc -
      cnt2 c.buf c.nw c.oldsize c.lastoffset C s.scan →
    0 ≤ s.len → 0 ≤ s.pos → s.pos + s.len ≤ c.oldsize →
    ∀ (k : ExitKind) (s1 : ScanSt), scanLoop c fuel s = (k, s1) →
    C ≤ s1.scan ∧ 0 ≤ s1.scan ∧ s1.scan ≤ c.scansize ∧ C ≤ s1.scsc ∧
    0 ≤ s1.len ∧ 0 ≤ s1.pos ∧ s1.pos + s1.len ≤ c.oldsize ∧
    (k = .atEnd → s1.scan = c.scansize) ∧
    (k ≠ .atEnd →
       s1.scan < c.scansize ∧ s1.len ≤ c.scansize - s1.scan ∧
       searchFull c.I c.buf
         ((c.nw.take c.scansize.toNat).drop s1.scan.toNat) 0
         (c.oldsize - 1) = (s1.len, s1.pos) ∧
       s1.scan + s1.len ≤ s1.scsc) ∧
    (k = .matchEq → s1.len = s1.oldscore ∧ s1.len ≠ 0) ∧
    (k = .bigLen → s1.len > s1.oldscore + 8 ∧
       s1.oldscore = cnt2 c.buf c.nw c.oldsize c.lastoffset C s1.scsc -
         cnt2 c.buf c.nw c.oldsize c.lastoffset C s1.scan) ∧
    (k = .stall →
       s1.oldscore ≤ s1.len ∧ s1.len ≤ s1.oldscore + 8 ∧
       s1.oldscore = cnt2 c.buf c.nw c.oldsize c.lastoffset C s1.scsc -
         cnt2 c.buf c.nw c.oldsize c.lastoffset C (s1.scan + 1) ∧
       ¬((s1.len = cnt2 c.buf c.nw c.oldsize c.lastoffset C s1.scsc -
            cnt2 c.buf c.nw c.oldsize c.lastoffset C s1.scan ∧
          s1.len ≠ 0) ∨
         s1.len > cnt2 c.buf c.nw c.oldsize c.lastoffset C s1.scsc -
            cnt2 c.buf c.nw c.oldsize c.lastoffset C s1.scan + 8)) := by
  intro fuel
  induction fuel with
  | zero =>
    intro s C hf
    omega
  | succ n ih =>
    intro s C hf h0scan hCscan hCscsc hss hos hl0 hp0 hpl k s1 hrun
    rw [scanLoop] at hrun
    by_cases hlt : s.scan < c.scansize
    case neg =>
      rw [if_neg hlt] at hrun
      injection hrun with hk hs1
      subst hk
      subst hs1
      refine ⟨hCscan, h0scan, hss, hCscsc, hl0, hp0, hpl, ?_, ?_, ?_, ?_, ?_⟩
      · intro _; omega
      · intro hne; exact absurd rfl hne
      · intro hc; cases hc
      · intro hc; cases hc
      · intro hc; cases hc
    case pos =>
      rw [if_pos hlt] at hrun
      rcases hsr : searchFull c.I c.buf
          ((c.nw.take c.scansize.toNat).drop s.scan.toNat) 0
          (c.oldsize - 1) with ⟨len1, pos1⟩
      rcases hsc : scoreAdd c.buf c.nw c.oldsize c.lastoffset
          ((s.scan + len1 - s.scsc).toNat) s.scsc s.oldscore
        with ⟨scsc1, old1⟩
      rw [scanIter_eq c s len1 pos1 scsc1 old1 hsr hsc] at hrun
      have hsp := searchFull_props c.buf
        ((c.nw.take c.scansize.toNat).drop s.scan.toNat) c.oldsize len1 pos1
        hnc (by rw [← hIc]; exact hsr)
      have hqlen : ((((c.nw.take c.scansize.toNat).drop
          s.scan.toNat).length : Nat) : Int) = c.scansize - s.scan := by
        simp only [List.length_drop, List.length_take]
        omega
      have hlen1 : len1 ≤ c.scansize - s.scan := by
        have := hsp.2.2.2.2.2
        omega
      have hscp := scoreAdd_eq c.buf c.nw c.oldsize c.lastoffset
        ((s.scan + len1 - s.scsc).toNat) s.scsc s.oldscore
      rw [hsc] at hscp
      injection hscp with hscsc1 hold1
      have hscge : s.scan + len1 ≤ scsc1 ∧ s.scsc ≤ scsc1 := by
        constructor <;> omega
      have hcnteq : cnt2 c.buf c.nw c.oldsize c.lastoffset s.scsc scsc1 =
          cntm c.buf c.nw c.oldsize c.lastoffset s.scsc
            ((s.scan + len1 - s.scsc).toNat) := by
        unfold cnt2
        congr 1
        omega
      have hsub := cnt2_sub c.buf c.nw c.oldsize c.lastoffset C s.scsc scsc1
        hCscsc hscge.2
      have hold2 : old1 = cnt2 c.buf c.nw c.oldsize c.lastoffset C scsc1 -
          cnt2 c.buf c.nw c.oldsize c.lastoffset C s.scan := by
        rw [hold1, hos]
        rw [← hcnteq]
        omega
      by_cases hbrk : (len1 = old1 ∧ len1 ≠ 0) ∨ len1 > old1 + 8
      · rw [if_pos hbrk] at hrun
        dsimp only at hrun
        injection hrun with hk hs1
        subst hs1
        refine ⟨hCscan, h0scan, by dsimp only; omega, by dsimp only; omega,
          by dsimp only; omega, by dsimp only; omega,
          by dsimp only; omega, ?_, ?_, ?_, ?_, ?_⟩
        · intro hke
          rw [← hk] at hke
          split_ifs at hke <;> cases hke
        · intro _
          exact ⟨hlt, by dsimp only; omega, hsr, by dsimp only; omega⟩
        · intro hke
          rw [← hk] at hke
          by_cases hme : len1 = old1 ∧ len1 ≠ 0
          · exact hme
          · rw [if_neg hme] at hke
            cases hke
        · intro hke
          rw [← hk] at hke
          by_cases hme : len1 = old1 ∧ len1 ≠ 0
          · rw [if_pos hme] at hke
            cases hke
          · have h9 : len1 > old1 + 8 := by tauto
            exact ⟨h9, hold2⟩
        · intro hke
          rw [← hk] at hke
          split_ifs at hke <;> cases hke
      · rw [if_neg hbrk] at hrun
        dsimp only at hrun
        have hbv : (if s.scan + c.lastoffset < c.oldsize ∧
            idx c.buf (s.scan + c.lastoffset) = idx c.nw s.scan
            then old1 - 1 else old1) =
            old1 - bitv c.buf c.nw c.oldsize c.lastoffset s.scan := by
          unfold bitv
          split_ifs <;> omega
        rw [hbv] at hrun
        have hdecf : old1 - bitv c.buf c.nw c.oldsize c.lastoffset s.scan =
            cnt2 c.buf c.nw c.oldsize c.lastoffset C scsc1 -
            cnt2 c.buf c.nw c.oldsize c.lastoffset C (s.scan + 1) := by
          have h1 := cnt2_sub c.buf c.nw c.oldsize c.lastoffset C s.scan
            (s.scan + 1) hCscan (by omega)
          have h2 := cnt2_one c.buf c.nw c.oldsize c.lastoffset s.scan
          omega
        by_cases hcond : s.len - 8 ≤ len1 ∧ len1 ≤ s.len ∧
            s.oldscore - 8 ≤ old1 - bitv c.buf c.nw c.oldsize c.lastoffset
              s.scan ∧
            old1 - bitv c.buf c.nw c.oldsize c.lastoffset s.scan ≤
              s.oldscore ∧
            s.pos ≤ pos1 ∧ pos1 ≤ s.pos + 8 ∧
            old1 - bitv c.buf c.nw c.oldsize c.lastoffset s.scan ≤ len1 ∧
            len1 ≤ old1 - bitv c.buf c.nw c.oldsize c.lastoffset s.scan + 8
        · rw [if_pos hcond] at hrun
          by_cases h100 : s.num8 + 1 > 100
          · rw [if_pos h100] at hrun
            injection hrun with hk hs1
            subst hs1
            refine ⟨hCscan, h0scan, by dsimp only; omega,
              by dsimp only; omega, by dsimp only; omega,
              by dsimp only; omega, by dsimp only; omega, ?_, ?_, ?_, ?_, ?_⟩
            · intro hke; rw [← hk] at hke; cases hke
            · intro _
              exact ⟨hlt, by dsimp only; omega, hsr, by dsimp only; omega⟩
            · intro hke; rw [← hk] at hke; cases hke
            · intro hke; rw [← hk] at hke; cases hke
            · intro _
              refine ⟨by dsimp only; omega, by dsimp only; omega, ?_, ?_⟩
              · dsimp only
                exact hdecf
              · dsimp only
                rw [← hold2]
                exact hbrk
          · rw [if_neg h100] at hrun
            exact ih
              { scan := s.scan + 1
                scsc := scsc1
                len := len1
                pos := pos1
                oldscore := old1 -
                  bitv c.buf c.nw c.oldsize c.lastoffset s.scan
                num8 := s.num8 + 1 }
              C (by dsimp only; omega) (by dsimp only; omega)
              (by dsimp only; omega) (by dsimp only; omega)
              (by dsimp only; omega) (by dsimp only; rw [hdecf])
              (by dsimp only; omega) (by dsimp only; omega)
              (by dsimp only; omega) k s1 hrun
        · rw [if_neg hcond] at hrun
          rw [if_neg (by omega)] at hrun
          exact ih
            { scan := s.scan + 1
              scsc := scsc1
              len := len1
              pos := pos1
              oldscore := old1 -
                bitv c.buf c.nw c.oldsize c.lastoffset s.scan
              num8 := 0 }
            C (by dsimp only; omega) (by dsimp only; omega)
            (by dsimp only; omega) (by dsimp only; omega)
            (by dsimp only; omega) (by dsimp only; rw [hdecf])
            (by dsimp only; omega) (by dsimp only; omega)
            (by dsimp only; omega) k s1 hrun

theorem extFwd_bounds (m : Int → Bool) (steps : Nat) :
    ∀ (i s sf lenf : Int), lenf ≤ i →
      lenf ≤ extFwd m steps i s sf lenf ∧
      extFwd m steps i s sf lenf ≤ i + steps := by
  induction steps with
  | zero =>
    intro i s sf lenf h
    unfold extFwd
    exact ⟨le_refl _, by omega⟩
  | succ n ih =>
    intro i s sf lenf h
    unfold extFwd
    dsimp only
    generalize (if m i = true then s + 1 else s) = s1
    split_ifs with hc
    · have hr := ih (i + 1) s1 s1 (i + 1) (le_refl _)
      exact ⟨by omega, by omega⟩
    · have hr := ih (i + 1) s1 sf lenf (by omega)
      exact ⟨hr.1, by omega⟩

/-- The backward-extension accumulator only grows lenb and never past the
iteration count: from a state with lenb ≤ i - 1, the result lies in
[lenb, i - 1 + steps]. -/
theorem extBwd_bounds (m : Int → Bool) (steps : Nat) :
    ∀ (i s sb lenb : Int), lenb ≤ i - 1 →
      lenb ≤ extBwd m steps i s sb lenb ∧
      extBwd m steps i s sb lenb ≤ i - 1 + steps := by
  induction steps with
  | zero =>
    intro i s sb lenb h
    unfold extBwd
    exact ⟨le_refl _, by omega⟩
  | succ n ih =>
    intro i s sb lenb h
    unfold extBwd
    dsimp only
    generalize (if m i = true then s + 1 else s) = s1
    split_ifs with hc
    · have hr := ih (i + 1) s1 s1 i (by omega)
      exact ⟨by omega, by omega⟩
    · have hr := ih (i + 1) s1 sb lenb (by omega)
      exact ⟨hr.1, by omega⟩

/-- The overlap-sweep accumulator only grows lens and never past the
iteration count: from a state with lens ≤ i, the result lies in
[lens, i + steps]. -/
theorem extOvl_bounds (mf mb : Int → Bool) (steps : Nat) :
    ∀ (i s ss lens : Int), lens ≤ i →
      lens ≤ extOvl mf mb steps i s ss lens ∧
      extOvl mf mb steps i s ss lens ≤ i + steps := by
  induction steps with
  | zero =>
    intro i s ss lens h
    unfold extOvl
    exact ⟨le_refl _, by omega⟩
  | succ n ih =>
    intro i s ss lens h
    unfold extOvl
    dsimp only
    generalize (if mb i = true then (if mf i = true then s + 1 else s) - 1
                else if mf i = true then s + 1 else s) = s2
    split_ifs with hc
    · have hr := ih (i + 1) s2 s2 (i + 1) (le_refl _)
      exact ⟨by omega, by omega⟩
    · have hr := ih (i + 1) s2 ss lens (by omega)
      exact ⟨hr.1, by omega⟩

/-- Combined bounds on the committed (lenf, lenb): both are nonnegative, lenf
fits the forward window, lenb fits the gap and the old position, and the
extra count (scan - lenb) - (lastscan + lenf) is nonnegative. -/
theorem resolveExt_props (ci : CommitIn) (hls : ci.lastscan ≤ ci.scan)
    (hpos : 0 ≤ ci.pos) :
    0 ≤ (resolveExt ci).1 ∧
    (resolveExt ci).1 ≤ ((fwdSteps ci : Int)) ∧
    0 ≤ (resolveExt ci).2 ∧
    (resolveExt ci).2 ≤ ci.scan - ci.lastscan ∧
    (resolveExt ci).2 ≤ ci.pos ∧
    0 ≤ (ci.scan - (resolveExt ci).2) - (ci.lastscan + (resolveExt ci).1) := by
  have hf := extFwd_bounds (fwdMatch ci) (fwdSteps ci) 0 0 0 0 (le_refl 0)
  have hfs : (fwdSteps ci : Int) ≤ ci.scan - ci.lastscan := by
    have h := min_le_left (ci.scan - ci.lastscan) (ci.oldsize - ci.lastpos)
    unfold fwdSteps
    omega
  have hb1 : (bwdSteps ci : Int) ≤ ci.scan - ci.lastscan := by
    have h := min_le_left (ci.scan - ci.lastscan) ci.pos
    unfold bwdSteps
    omega
  have hb2 : (bwdSteps ci : Int) ≤ ci.pos := by
    have h := min_le_right (ci.scan - ci.lastscan) ci.pos
    unfold bwdSteps
    omega
  have hb : 0 ≤ genLenb0 ci ∧ genLenb0 ci ≤ ci.scan - ci.lastscan ∧
      genLenb0 ci ≤ ci.pos := by
    unfold genLenb0
    split_ifs with hss
    · have hbb := extBwd_bounds (bwdMatch ci) (bwdSteps ci) 1 0 0 0 (by omega)
      exact ⟨by omega, by omega, by omega⟩
    · exact ⟨le_refl 0, by omega, hpos⟩
  unfold resolveExt
  have hova : ovlAmount ci = (ci.lastscan + genLenf0 ci) - (ci.scan - genLenb0 ci) := rfl
  have hlf : genLenf0 ci = extFwd (fwdMatch ci) (fwdSteps ci) 0 0 0 0 := rfl
  split_ifs with hov
  · have hs := extOvl_bounds (ovlFwd ci) (ovlBwd ci) (ovlAmount ci).toNat 0 0 0 0 (le_refl 0)
    refine ⟨?_, ?_, ?_, ?_, ?_, ?_⟩ <;>
      simp only [genLens] <;> omega
  · refine ⟨?_, ?_, ?_, ?_, ?_, ?_⟩ <;> omega

/-- At the block end (scan = scansize) the backward extension is skipped and
the overlap branch cannot fire, so the committed lenb is 0. -/
theorem resolveExt_atEnd (ci : CommitIn) (h : ci.scansize ≤ ci.scan)
    (hls : ci.lastscan ≤ ci.scan) :
    (resolveExt ci).2 = 0 := by
  have hb0 : genLenb0 ci = 0 := by
    unfold genLenb0
    rw [if_neg (by omega)]
  have hf := extFwd_bounds (fwdMatch ci) (fwdSteps ci) 0 0 0 0 (le_refl 0)
  have hfl : ((fwdSteps ci : Nat) : Int) ≤ ci.scan - ci.lastscan := by
    have h1 := min_le_left (ci.scan - ci.lastscan) (ci.oldsize - ci.lastpos)
    unfold fwdSteps
    omega
  have hgf : genLenf0 ci = extFwd (fwdMatch ci) (fwdSteps ci) 0 0 0 0 := rfl
  have hova : ovlAmount ci ≤ 0 := by
    unfold ovlAmount
    omega
  unfold resolveExt
  rw [if_neg (by omega)]
  exact hb0

/-- A search hit whose position is exactly lastoffset-aligned with the scan
cursor turns every matched byte into an aligned match, so the match count of
the window [scan, scan + len) is full. -/
theorem matchlen_aligned_cnt (buf nw : List Nat) (n scansize scan pos : Int)
    (hn : (buf.length : Int) = n) (hq : scansize ≤ (nw.length : Int))
    (h0s : 0 ≤ scan) (h0p : 0 ≤ pos) (len : Int)
    (hlen : len = (matchlen (buf.drop pos.toNat)
      ((nw.take scansize.toNat).drop scan.toNat) : Int))
    (hss : scan + len ≤ scansize) (hpl : pos + len ≤ n) :
    cnt2 buf nw n (pos - scan) scan (scan + len) = len := by
  have h0len : 0 ≤ len := by
    rw [hlen]
    exact_mod_cast Nat.zero_le _
  unfold cnt2
  rw [show (scan + len - scan).toNat = len.toNat by omega]
  have hall : ∀ j : Nat, j < len.toNat →
      bitv buf nw n (pos - scan) (scan + j) = 1 := by
    intro j hj
    have hmn : j < matchlen (buf.drop pos.toNat)
        ((nw.take scansize.toNat).drop scan.toNat) := by omega
    have hmm := matchlen_matches _ _ j hmn
    have hbl : pos.toNat + j < buf.length := by omega
    have hnl1 : scan.toNat + j < scansize.toNat := by omega
    have hnl2 : scan.toNat + j < nw.length := by omega
    rw [getD_drop buf pos.toNat j hbl,
        getD_drop_take nw scan.toNat scansize.toNat j hnl1 hnl2] at hmm
    have hc1 : (scan + j) + (pos - scan) < n := by omega
    have hc2 : idx buf ((scan + j) + (pos - scan)) = idx nw (scan + j) := by
      have he1 : (scan + (j : Int)) + (pos - scan) = pos + (j : Int) := by ring
      rw [he1]
      unfold idx
      rw [if_pos (by omega), if_pos (by omega)]
      rw [show (pos + (j : Int)).toNat = pos.toNat + j by omega,
          show (scan + (j : Int)).toNat = scan.toNat + j by omega]
      exact hmm
    unfold bitv
    rw [if_pos ⟨hc1, hc2⟩]
  rw [cnt2_full buf nw n (pos - scan) len.toNat scan hall]
  omega

/-- A lastoffset-aligned byte match at the scan cursor forces the search to
find a match of length at least one. -/
theorem matchlen_pos_of_idx_eq (buf nw : List Nat) (n scansize scan pos : Int)
    (hn : (buf.length : Int) = n) (hq : scansize ≤ (nw.length : Int))
    (h0s : 0 ≤ scan) (hss : scan < scansize) (h0p : 0 ≤ pos) (hpn : pos < n)
    (heq : idx buf pos = idx nw scan) :
    1 ≤ matchlen (buf.drop pos.toNat)
      ((nw.take scansize.toNat).drop scan.toNat) := by
  have hb : pos.toNat < buf.length := by omega
  have ht : scan.toNat < (nw.take scansize.toNat).length := by
    simp only [List.length_take]
    omega
  have hnw : scan.toNat < nw.length := by omega
  rw [List.drop_eq_getElem_cons hb, List.drop_eq_getElem_cons ht]
  apply matchlen_head
  have h3 : (nw.take scansize.toNat).getD scan.toNat 0 =
      nw.getD scan.toNat 0 := by
    have h4 := getD_drop_take nw 0 scansize.toNat scan.toNat (by omega)
      (by omega)
    simpa using h4
  have h1 : buf.getD pos.toNat 0 = nw.getD scan.toNat 0 := by
    unfold idx at heq
    rw [if_pos h0p, if_pos h0s] at heq
    exact heq
  rw [← List.getD_eq_getElem buf 0 hb, ← List.getD_eq_getElem _ 0 ht]
  rw [h3]
  exact h1

/-- Under the generator's invariants the wire-size checks of a commit always
pass, so commitStep emits exactly the record computed from the resolved
extensions. -/
theorem commitStep_ok (ci : CommitIn)
    (hn : (ci.buf.length : Int) = ci.oldsize)
    (hnI : ci.oldsize ≤ INT32MAX)
    (hsI : ci.scansize ≤ INT32MAX)
    (h0ls : 0 ≤ ci.lastscan) (hlss : ci.lastscan ≤ ci.scan)
    (hsss : ci.scan ≤ ci.scansize)
    (h0lp : 0 ≤ ci.lastpos) (hlpn : ci.lastpos ≤ ci.oldsize)
    (h0p : 0 ≤ ci.pos) (hpn : ci.pos ≤ ci.oldsize) :
    commitStep ci = .ok
      ({ f1 := (resolveExt ci).1.toNat,
         f2 := ((ci.scan - (resolveExt ci).2) -
           (ci.lastscan + (resolveExt ci).1)).toNat,
         seek := (ci.pos - (resolveExt ci).2) -
           (ci.lastpos + (resolveExt ci).1),
         payload := diffBytes ci.buf ci.nw ci.lastpos ci.lastscan
             (resolveExt ci).1.toNat ++
           slice ci.nw (ci.lastscan + (resolveExt ci).1)
             (ci.scan - (resolveExt ci).2) },
       (resolveExt ci).1, (resolveExt ci).2) := by
  obtain ⟨hp1, hp2, hp3, hp4, hp5, hp6⟩ := resolveExt_props ci hlss h0p
  have hfw : ((fwdSteps ci : Nat) : Int) ≤ ci.oldsize - ci.lastpos := by
    have h1 := min_le_right (ci.scan - ci.lastscan) (ci.oldsize - ci.lastpos)
    unfold fwdSteps
    omega
  have hfwl : ((fwdSteps ci : Nat) : Int) ≤ ci.scan - ci.lastscan := by
    have h1 := min_le_left (ci.scan - ci.lastscan) (ci.oldsize - ci.lastpos)
    unfold fwdSteps
    omega
  have hI : INT32MAX = 2147483647 := rfl
  unfold commitStep
  dsimp only
  rw [if_neg (by omega)]
  split_ifs with hw2
  · exfalso
    simp only [ MOD32, wrapS32, DDELTA_FLUSH] at hw2
    omega
  · rfl

/-- The committed record is never the all-zero terminator: under the loop
invariants a commit whose lenf, extra and seek all vanish would force the
search hit to be lastoffset-aligned, and each exit kind then contradicts its
own break condition or the commit guard. -/
theorem no_terminator_collision (c : GenCtx) (k : ExitKind) (s1 : ScanSt)
    (lastscan lastpos C : Int) (ci : CommitIn)
    (hnc : (c.buf.length : Int) = c.oldsize)
    (hq : c.scansize ≤ (c.nw.length : Int))
    (hoff : c.lastoffset = lastpos - lastscan)
    (hlsC : lastscan ≤ C) (hlsss : lastscan < c.scansize)
    (hci : ci = { buf := c.buf, nw := c.nw, oldsize := c.oldsize,
                  scansize := c.scansize, lastscan := lastscan,
                  lastpos := lastpos, scan := s1.scan, pos := s1.pos })
    (hIc : c.I = suffixArray c.buf)
    (hCscan : C ≤ s1.scan) (h0scan : 0 ≤ s1.scan)
    (hscanss : s1.scan ≤ c.scansize)
    (h0len : 0 ≤ s1.len) (h0pos : 0 ≤ s1.pos)
    (hpln : s1.pos + s1.len ≤ c.oldsize)
    (hatEnd : k = ExitKind.atEnd → s1.scan = c.scansize)
    (hne : k ≠ ExitKind.atEnd →
       s1.scan < c.scansize ∧ s1.len ≤ c.scansize - s1.scan ∧
       searchFull c.I c.buf
         ((c.nw.take c.scansize.toNat).drop s1.scan.toNat) 0
         (c.oldsize - 1) = (s1.len, s1.pos) ∧
       s1.scan + s1.len ≤ s1.scsc)
    (hmeq : k = ExitKind.matchEq → s1.len = s1.oldscore ∧ s1.len ≠ 0)
    (hbig : k = ExitKind.bigLen → s1.len > s1.oldscore + 8 ∧
       s1.oldscore = cnt2 c.buf c.nw c.oldsize c.lastoffset C s1.scsc -
         cnt2 c.buf c.nw c.oldsize c.lastoffset C s1.scan)
    (hstall : k = ExitKind.stall →
       s1.oldscore ≤ s1.len ∧ s1.len ≤ s1.oldscore + 8 ∧
       s1.oldscore = cnt2 c.buf c.nw c.oldsize c.lastoffset C s1.scsc -
         cnt2 c.buf c.nw c.oldsize c.lastoffset C (s1.scan + 1) ∧
       ¬((s1.len = cnt2 c.buf c.nw c.oldsize c.lastoffset C s1.scsc -
            cnt2 c.buf c.nw c.oldsize c.lastoffset C s1.scan ∧
          s1.len ≠ 0) ∨
         s1.len > cnt2 c.buf c.nw c.oldsize c.lastoffset C s1.scsc -
            cnt2 c.buf c.nw c.oldsize c.lastoffset C s1.scan + 8))
    (hguard : s1.len ≠ s1.oldscore ∨ s1.scan = c.scansize) :
    ¬((resolveExt ci).1 = 0 ∧
      (ci.scan - (resolveExt ci).2) - (ci.lastscan + (resolveExt ci).1) = 0 ∧
      (ci.pos - (resolveExt ci).2) - (ci.lastpos + (resolveExt ci).1) = 0) := by
  have hfb : ci.buf = c.buf := by rw [hci]
  have hfw : ci.nw = c.nw := by rw [hci]
  have hfo : ci.oldsize = c.oldsize := by rw [hci]
  have hfs : ci.scansize = c.scansize := by rw [hci]
  have hfl : ci.lastscan = lastscan := by rw [hci]
  have hfp : ci.lastpos = lastpos := by rw [hci]
  have hfsc : ci.scan = s1.scan := by rw [hci]
  have hfpo : ci.pos = s1.pos := by rw [hci]
  intro hcol
  obtain ⟨hA, hB, hC⟩ := hcol
  have hp := resolveExt_props ci (by omega) (by omega)
  obtain ⟨hp1, hp2, hp3, hp4, hp5, hp6⟩ := hp
  have hlenb : (resolveExt ci).2 = s1.scan - lastscan := by omega
  have hposv : s1.pos = lastpos + (s1.scan - lastscan) := by omega
  have hslt : s1.scan < c.scansize := by
    by_contra hge
    have hb0 := resolveExt_atEnd ci (by omega) (by omega)
    omega
  have hkne : k ≠ ExitKind.atEnd := by
    intro hk
    have := hatEnd hk
    omega
  obtain ⟨hlt2, hlenss, hsearch, hscsc⟩ := hne hkne
  rw [hIc] at hsearch
  have hsp := searchFull_props c.buf
    ((c.nw.take c.scansize.toNat).drop s1.scan.toNat) c.oldsize s1.len s1.pos
    hnc hsearch
  have hml := hsp.1
  have hcnt := matchlen_aligned_cnt c.buf c.nw c.oldsize c.scansize s1.scan
    s1.pos hnc hq h0scan h0pos s1.len hml (by omega) hpln
  have hoffeq : s1.pos - s1.scan = c.lastoffset := by omega
  rw [hoffeq] at hcnt
  have hsub1 := cnt2_sub c.buf c.nw c.oldsize c.lastoffset C s1.scan s1.scsc
    hCscan (by omega)
  have hsub2 := cnt2_sub c.buf c.nw c.oldsize c.lastoffset s1.scan
    (s1.scan + s1.len) s1.scsc (by omega) (by omega)
  have hnn : 0 ≤ cnt2 c.buf c.nw c.oldsize c.lastoffset (s1.scan + s1.len)
      s1.scsc := by
    unfold cnt2
    exact (cntm_bounds c.buf c.nw c.oldsize c.lastoffset _ _).1
  cases k with
  | atEnd => exact hkne rfl
  | matchEq =>
    obtain ⟨hm1, hm2⟩ := hmeq rfl
    rcases hguard with hg | hg
    · exact hg hm1
    · omega
  | bigLen =>
    obtain ⟨hb1, hb2⟩ := hbig rfl
    omega
  | stall =>
    obtain ⟨hs1, hs2, hs3, hs4⟩ := hstall rfl
    rw [not_or] at hs4
    obtain ⟨hs4a, hs4b⟩ := hs4
    have hsub3 := cnt2_sub c.buf c.nw c.oldsize c.lastoffset C s1.scan
      (s1.scan + 1) hCscan (by omega)
    have hone := cnt2_one c.buf c.nw c.oldsize c.lastoffset s1.scan
    have hbv := bitv_cases c.buf c.nw c.oldsize c.lastoffset s1.scan
    have hgne : s1.len ≠ s1.oldscore := by
      rcases hguard with h | h
      · exact h
      · omega
    by_cases hl0 : s1.len = 0
    · have hbv1 : bitv c.buf c.nw c.oldsize c.lastoffset s1.scan = 1 := by
        omega
      have hbiff : s1.scan + c.lastoffset < c.oldsize ∧
          idx c.buf (s1.scan + c.lastoffset) = idx c.nw s1.scan := by
        by_contra hcon
        unfold bitv at hbv1
        rw [if_neg hcon] at hbv1
        exact absurd hbv1 (by norm_num)
      have hpose : s1.scan + c.lastoffset = s1.pos := by omega
      have hhead := matchlen_pos_of_idx_eq c.buf c.nw c.oldsize c.scansize
        s1.scan s1.pos hnc hq h0scan hslt h0pos (by omega)
        (by rw [← hpose]; exact hbiff.2)
      omega
    · have hne2 : s1.len ≠ cnt2 c.buf c.nw c.oldsize c.lastoffset C s1.scsc -
          cnt2 c.buf c.nw c.oldsize c.lastoffset C s1.scan := by
        intro he
        exact hs4a ⟨he, hl0⟩
      omega

/-- One normal record whose checks all pass advances the applier: the old
cursor moves by f1 then seek, the running oldcrc absorbs the consumed old
bytes, and the diff and extra output is appended to the destination. -/
theorem apply_normal_step (dirMode : Bool) (hdrSize : Nat) (it : PItem)
    (rest : List PItem) (st : ApSt)
    (hterm : ¬(it.f1 = 0 ∧ it.f2 = 0 ∧ it.seek = 0))
    (hfl : it.seek ≠ DDELTA_FLUSH)
    (hp1 : it.f1 ≤ it.payload.length)
    (hp2 : it.f2 ≤ it.payload.length - it.f1)
    (hpos : 0 ≤ st.opos)
    (hread : st.opos + it.f1 ≤ st.old.length)
    (hseek : 0 ≤ st.opos + it.f1 + it.seek) :
    ddelta_apply dirMode hdrSize (it :: rest) st =
      ddelta_apply dirMode hdrSize rest
        { st with
          opos := st.opos + it.f1 + it.seek,
          oldcrc := crc32 st.oldcrc ((st.old.drop st.opos.toNat).take it.f1),
          out := st.out ++
            List.zipWith (fun o p => (o + p) % 256)
              ((st.old.drop st.opos.toNat).take it.f1)
              (it.payload.take it.f1) ++
            (it.payload.drop it.f1).take it.f2,
          written := st.written + it.f1 + it.f2 } := by
  rw [ddelta_apply]
  rw [if_neg hterm, if_neg hfl]
  have hlen2 : (it.payload.drop it.f1).length = it.payload.length - it.f1 :=
    List.length_drop it.f1 it.payload
  rw [if_neg (by omega), if_neg (by omega), if_neg (by omega),
      if_neg (by omega)]

/-- The record a commit emits is applied as one normal step, and the
resulting applier state is expressed in slice form: the cursor lands on
pos - lenb, the oldcrc absorbs old[lastpos, lastpos + lenf), and the
destination gains exactly new[lastscan, scan - lenb). -/
theorem apply_commit_step (dirMode : Bool) (hdrSize : Nat)
    (rest : List PItem) (ast : ApSt) (nw : List Nat)
    (n lastscan lastpos lenf lenb scan pos : Int) (it : PItem)
    (hbyte : ∀ b ∈ nw, b < 256)
    (hold : (ast.old.length : Int) = n)
    (hopos : ast.opos = lastpos)
    (hf1 : it.f1 = lenf.toNat)
    (hf2 : it.f2 = ((scan - lenb) - (lastscan + lenf)).toNat)
    (hsk : it.seek = (pos - lenb) - (lastpos + lenf))
    (hpl : it.payload = diffBytes ast.old nw lastpos lastscan lenf.toNat ++
      slice nw (lastscan + lenf) (scan - lenb))
    (h0ls : 0 ≤ lastscan) (h0lp : 0 ≤ lastpos)
    (h0f : 0 ≤ lenf) (hfn : lastpos + lenf ≤ n)
    (h0b : 0 ≤ lenb) (hbp : lenb ≤ pos) (hpn : pos ≤ n)
    (hext : lastscan + lenf ≤ scan - lenb)
    (hsn : scan - lenb ≤ (nw.length : Int))
    (hnI : n ≤ INT32MAX)
    (hcol : ¬(lenf = 0 ∧ (scan - lenb) - (lastscan + lenf) = 0 ∧
              (pos - lenb) - (lastpos + lenf) = 0)) :
    ddelta_apply dirMode hdrSize (it :: rest) ast =
      ddelta_apply dirMode hdrSize rest
        { ast with
          opos := pos - lenb,
          oldcrc := crc32 ast.oldcrc (slice ast.old lastpos (lastpos + lenf)),
          out := ast.out ++ slice nw lastscan (lastscan + lenf) ++
            slice nw (lastscan + lenf) (scan - lenb),
          written := ast.written + lenf.toNat +
            ((scan - lenb) - (lastscan + lenf)).toNat } := by
  have hI32 : INT32MAX = 2147483647 := rfl
  have hF : DDELTA_FLUSH = -2147483648 := rfl
  have hdl := diffBytes_length ast.old nw lenf.toNat lastpos lastscan
  have hlen1 : ((slice nw (lastscan + lenf) (scan - lenb)).length : Int) =
      (scan - lenb) - (lastscan + lenf) :=
    slice_length nw (lastscan + lenf) (scan - lenb) (by omega) hext hsn
  have hpl_len : it.payload.length =
      lenf.toNat + ((scan - lenb) - (lastscan + lenf)).toNat := by
    rw [hpl, List.length_append, hdl]
    omega
  rw [apply_normal_step dirMode hdrSize it rest ast (by omega)
    (by omega) (by omega) (by omega) (by omega) (by omega) (by omega)]
  have e1 : ast.opos + (it.f1 : Int) + it.seek = pos - lenb := by omega
  have e2 : (ast.old.drop ast.opos.toNat).take it.f1 =
      slice ast.old lastpos (lastpos + lenf) := by
    rw [hf1, hopos, slice_eq ast.old lastpos _ h0lp]
    congr 1
    omega
  have e3 : it.payload.take it.f1 =
      diffBytes ast.old nw lastpos lastscan lenf.toNat := by
    rw [hpl, hf1]
    exact List.take_left' hdl
  have e4 : it.payload.drop it.f1 =
      slice nw (lastscan + lenf) (scan - lenb) := by
    rw [hpl, hf1]
    exact List.drop_left' hdl
  have e5 : List.zipWith (fun o p => (o + p) % 256)
      (slice ast.old lastpos (lastpos + lenf))
      (diffBytes ast.old nw lastpos lastscan lenf.toNat) =
      slice nw lastscan (lastscan + lenf) := by
    rw [slice_eq ast.old lastpos _ h0lp,
        show (lastpos + lenf - lastpos).toNat = lenf.toNat by omega]
    rw [slice_eq nw lastscan _ h0ls,
        show (lastscan + lenf - lastscan).toNat = lenf.toNat by omega]
    exact diff_payload_recovers ast.old nw hbyte lenf.toNat lastpos lastscan
      h0lp h0ls (by omega) (by omega)
  have e6 : (slice nw (lastscan + lenf) (scan - lenb)).take it.f2 =
      slice nw (lastscan + lenf) (scan - lenb) := by
    rw [hf2, show ((scan - lenb) - (lastscan + lenf)).toNat =
      (slice nw (lastscan + lenf) (scan - lenb)).length by omega]
    exact List.take_length _
  rw [e1, e2, e3, e4, e5, e6, hf1, hf2]

/-- A flush record in directory mode whose oldcrc matches the applier's
running value promotes the temp file, restores it over
[written - |out|, written) of the old stream (the restore CRC matching
newcrc), unlinks the checkpoint, and resets out and oldcrc; the trace gains
one entry whose CRC pairs agree. -/
theorem apply_flush_step (hdrSize : Nat) (rest : List PItem) (st : ApSt)
    (it : PItem)
    (hf1 : it.f1 = st.oldcrc)
    (hsk : it.seek = DDELTA_FLUSH)
    (hcrc : crc32 0 st.out = it.f2)
    (hbk : st.backups = [])
    (hout : (st.out.length : Int) ≤ (st.written : Int)) :
    ddelta_apply true hdrSize (it :: rest) st =
      ddelta_apply true hdrSize rest
        { st with
          old := writeAt st.old
            ((st.written : Int) - st.out.length).toNat st.out,
          backups := [], out := [], tmpExists := true, oldcrc := 0,
          trace := st.trace ++ [(st.oldcrc, it.f1, it.f2, it.f2)] } := by
  have hF : DDELTA_FLUSH = -2147483648 := rfl
  have hcf : copyFile st.out st.old st.opos
      ((st.written : Int) - st.out.length) st.written 0 =
      .ok (writeAt st.old ((st.written : Int) - st.out.length).toNat st.out,
           st.opos, crc32 0 st.out) := by
    unfold copyFile
    rw [if_neg (by omega)]
    dsimp only
    rw [show ((st.written : Int) -
      ((st.written : Int) - (st.out.length : Int))).toNat =
      st.out.length by omega]
    rw [if_neg (by omega), List.take_length]
  have hfe : fsErase ([] : List (Nat × List Nat)) it.f2 = [] := rfl
  have hfs2 : fsErase ((it.f2, st.out) :: []) it.f2 = [] := by
    simp [fsErase]
  rw [ddelta_apply]
  rw [if_neg (by omega), if_pos hsk, if_neg (by decide)]
  dsimp only
  rw [hf1, if_pos rfl, if_pos rfl, hbk, hfe]
  have hlk : List.lookup it.f2 [(it.f2, st.out)] = some st.out := by
    simp [List.lookup]
  rw [hlk]
  dsimp only
  rw [hcf]
  dsimp only
  rw [if_neg (fun h => h hcrc), hcrc, hfs2]

/-- Simulation of one block's outer loop: a successful run extends the patch
by records that drive the applier from any state satisfying the block
invariant to a state satisfying it again, with the scan and commit frontier
both at the block end and no flush trace entries added. -/
theorem outerLoop_sim (buf nw : List Nat) (n scansize blockStart : Int)
    (hdrSize : Nat)
    (hbyte : ∀ b ∈ nw, b < 256)
    (hn : (buf.length : Int) = n) (hnI : n ≤ INT32MAX)
    (hq : scansize ≤ (nw.length : Int)) (hsI : scansize ≤ INT32MAX) :
    ∀ (fuel : Nat) (st : GenSt) (ast : ApSt),
    InvO buf nw n scansize blockStart st ast →
    ∀ st1, outerLoop buf nw n scansize (suffixArray buf) fuel st = .ok st1 →
    ∃ (tl : List PItem) (ast1 : ApSt),
      st1.patch = st.patch ++ tl ∧
      st1.scan = scansize ∧ st1.lastscan = scansize ∧
      ast1.trace = ast.trace ∧
      InvO buf nw n scansize blockStart st1 ast1 ∧
      ∀ rest, ddelta_apply true hdrSize (tl ++ rest) ast =
        ddelta_apply true hdrSize rest ast1 := by
  intro fuel
  induction fuel with
  | zero =>
    intro st ast hinv st1 hrun
    rw [outerLoop] at hrun
    exact Except.noConfusion hrun
  | succ m ih =>
    intro st ast hinv st1 hrun
    obtain ⟨iv1, iv2, iv3, iv4, iv5, iv6, iv7, iv8, iv9, iv10, iv11, iv12,
      iv13, iv14, iv15, iv16, iv17, iv18, iv19, iv20⟩ := hinv
    rw [outerLoop] at hrun
    by_cases hlt : st.scan < scansize
    case neg =>
      rw [if_neg hlt] at hrun
      injection hrun with hst1
      subst hst1
      refine ⟨[], ast, (List.append_nil _).symm, by omega, by
        have := iv15 (by omega)
        omega, rfl, ?_, ?_⟩
      · exact ⟨iv1, iv2, iv3, iv4, iv5, iv6, iv7, iv8, iv9, iv10, iv11, iv12,
          iv13, iv14, iv15, iv16, iv17, iv18, iv19, iv20⟩
      · intro rest
        rfl
    case pos =>
      rw [if_pos hlt] at hrun
      dsimp only at hrun
      set c0 : GenCtx :=
        { buf := buf, nw := nw, oldsize := n, scansize := scansize,
          lastoffset := st.lastoffset, I := suffixArray buf } with hc0
      set s0 : ScanSt :=
        { scan := st.scan + st.len, scsc := st.scan + st.len, len := st.len,
          pos := st.pos, oldscore := 0, num8 := 0 } with hs0
      have hc0a : c0.buf = buf := by rw [hc0]
      have hc0b : c0.nw = nw := by rw [hc0]
      have hc0c : c0.oldsize = n := by rw [hc0]
      have hc0d : c0.scansize = scansize := by rw [hc0]
      have hc0e : c0.lastoffset = st.lastoffset := by rw [hc0]
      have hc0f : c0.I = suffixArray buf := by rw [hc0]
      have hs0a : s0.scan = st.scan + st.len := by rw [hs0]
      have hs0b : s0.scsc = st.scan + st.len := by rw [hs0]
      have hs0c : s0.len = st.len := by rw [hs0]
      have hs0d : s0.pos = st.pos := by rw [hs0]
      have hs0e : s0.oldscore = 0 := by rw [hs0]
      have hsl : st.scan + st.len ≤ scansize := iv14 hlt
      rcases hks : scanLoopFull c0 s0 with ⟨k, s1⟩
      rw [hks] at hrun
      dsimp only at hrun
      unfold scanLoopFull at hks
      have hnc0 : (c0.buf.length : Int) = c0.oldsize := by
        rw [hc0a, hc0c]
        exact hn
      have hqn0 : c0.scansize ≤ (c0.nw.length : Int) := by
        rw [hc0b, hc0d]
        exact hq
      have hIc0 : c0.I = suffixArray c0.buf := by rw [hc0a, hc0f]
      have hspec := scanLoop_spec c0 hIc0 hnc0 hqn0
        ((c0.scansize - s0.scan).toNat + 1) s0 s0.scan (by omega)
        (by omega) (le_refl s0.scan) (by omega) (by omega)
        (by
          rw [hs0e, show s0.scsc = s0.scan by omega]
          omega)
        (by omega) (by omega) (by omega) k s1 hks
      obtain ⟨sp1, sp2, sp3, sp4, sp5, sp6, sp7, sp8, sp9, sp10, sp11,
        sp12⟩ := hspec
      by_cases hguard : s1.len ≠ s1.oldscore ∨ s1.scan = scansize
      case pos =>
        rw [if_pos hguard] at hrun
        set ci : CommitIn :=
          { buf := buf, nw := nw, oldsize := n, scansize := scansize,
            lastscan := st.lastscan, lastpos := st.lastpos, scan := s1.scan,
            pos := s1.pos } with hci
        have hcia : ci.buf = buf := by rw [hci]
        have hcib : ci.nw = nw := by rw [hci]
        have hcic : ci.oldsize = n := by rw [hci]
        have hcid : ci.scansize = scansize := by rw [hci]
        have hcie : ci.lastscan = st.lastscan := by rw [hci]
        have hcif : ci.lastpos = st.lastpos := by rw [hci]
        have hcig : ci.scan = s1.scan := by rw [hci]
        have hcih : ci.pos = s1.pos := by rw [hci]
        have hcs := commitStep_ok ci
          (by rw [hcia, hcic]; exact hn)
          (by omega) (by omega) (by omega) (by omega) (by omega)
          (by omega) (by omega) (by omega) (by omega)
        rw [hcs] at hrun
        dsimp only at hrun
        obtain ⟨hq1, hq2, hq3, hq4, hq5, hq6⟩ :=
          resolveExt_props ci (by omega) (by omega)
        have hfw1 : ((fwdSteps ci : Nat) : Int) ≤ ci.scan - ci.lastscan := by
          have h1 := min_le_left (ci.scan - ci.lastscan)
            (ci.oldsize - ci.lastpos)
          unfold fwdSteps
          omega
        have hfw2 : ((fwdSteps ci : Nat) : Int) ≤ ci.oldsize - ci.lastpos := by
          have h1 := min_le_right (ci.scan - ci.lastscan)
            (ci.oldsize - ci.lastpos)
          unfold fwdSteps
          omega
        have hnocol := no_terminator_collision c0 k s1 st.lastscan st.lastpos
          s0.scan ci hnc0 hqn0 (by omega) (by omega) (by omega)
          (by rfl) hIc0
          sp1 sp2 sp3 sp5 sp6 sp7 sp8 sp9 sp10 sp11 sp12 (by omega)
        set it : PItem :=
          { f1 := (resolveExt ci).1.toNat,
            f2 := ((ci.scan - (resolveExt ci).2) -
              (ci.lastscan + (resolveExt ci).1)).toNat,
            seek := (ci.pos - (resolveExt ci).2) -
              (ci.lastpos + (resolveExt ci).1),
            payload := diffBytes ci.buf ci.nw ci.lastpos ci.lastscan
                (resolveExt ci).1.toNat ++
              slice ci.nw (ci.lastscan + (resolveExt ci).1)
                (ci.scan - (resolveExt ci).2) } with hit
        set st2 : GenSt :=
          { scan := s1.scan, len := s1.len, pos := s1.pos,
            lastscan := s1.scan - (resolveExt ci).2,
            lastpos := s1.pos - (resolveExt ci).2,
            lastoffset := s1.pos - s1.scan,
            oldcrc := crc32 st.oldcrc
              (slice buf st.lastpos (st.lastpos + (resolveExt ci).1)),
            newcrc := crc32 st.newcrc
              (slice nw st.lastscan (s1.scan - (resolveExt ci).2)),
            patch := st.patch ++ [it],
            exits := st.exits ++ [(k, true)] } with hst2
        set astC : ApSt :=
          { old := ast.old, opos := ci.pos - (resolveExt ci).2,
            written := ast.written + (resolveExt ci).1.toNat +
              ((ci.scan - (resolveExt ci).2) -
                (ci.lastscan + (resolveExt ci).1)).toNat,
            oldcrc := crc32 ast.oldcrc
              (slice ast.old ci.lastpos (ci.lastpos + (resolveExt ci).1)),
            out := ast.out ++
              slice nw ci.lastscan (ci.lastscan + (resolveExt ci).1) ++
              slice nw (ci.lastscan + (resolveExt ci).1)
                (ci.scan - (resolveExt ci).2),
            tmpExists := ast.tmpExists, backups := ast.backups,
            trace := ast.trace } with hastC
        have hstep : ∀ r, ddelta_apply true hdrSize (it :: r) ast =
            ddelta_apply true hdrSize r astC := by
          intro r
          rw [apply_commit_step true hdrSize r ast nw n ci.lastscan
            ci.lastpos (resolveExt ci).1 (resolveExt ci).2 ci.scan ci.pos it
            hbyte (by rw [iv1]; exact hn) (by omega) (by rw [hit])
            (by rw [hit]) (by rw [hit])
            (by rw [hit, iv1])
            (by omega) (by omega) (by omega) (by omega) (by omega) (by omega)
            (by omega) (by omega) (by omega) (by omega) hnocol]
        have hb2 : st.lastscan + (resolveExt ci).1 ≤ s1.scan -
            (resolveExt ci).2 := by omega
        have hinv2 : InvO buf nw n scansize blockStart st2 astC := by
          refine ⟨iv1, rfl, ?_, ?_, ?_, iv6, iv7, ?_, ?_, iv10, ?_, ?_, ?_,
            ?_, ?_, sp5, ?_, ?_, sp6, ?_⟩
          · dsimp only
            omega
          · dsimp only
            rw [iv4]
            rw [slice_append_slice nw blockStart st.lastscan
              (st.lastscan + (resolveExt ci).1) iv10 iv11 (by omega)]
            rw [slice_append_slice nw blockStart
              (st.lastscan + (resolveExt ci).1)
              (s1.scan - (resolveExt ci).2) iv10 (by omega) hb2]
          · dsimp only
            rw [iv5, iv1]
          · dsimp only
            rw [iv8, crc32_append]
            rw [slice_append_slice nw blockStart st.lastscan
              (s1.scan - (resolveExt ci).2) iv10 iv11 (by omega)]
          · dsimp only
            ring
          · dsimp only
            omega
          · dsimp only
            omega
          · dsimp only
            omega
          · dsimp only
            intro h
            have hkne2 : k ≠ ExitKind.atEnd := by
              intro hk
              have := sp8 hk
              omega
            obtain ⟨h9a, h9b, h9c, h9d⟩ := sp9 hkne2
            omega
          · dsimp only
            intro h
            have hb0 := resolveExt_atEnd ci (by omega) (by omega)
            omega
          · dsimp only
            omega
          · dsimp only
            omega
          · dsimp only
            omega
        obtain ⟨tl2, ast1, hpatch2, hsc1, hls1, htr2, hinv1, happ2⟩ :=
          ih st2 astC hinv2 st1 hrun
        refine ⟨it :: tl2, ast1, ?_, hsc1, hls1, ?_, hinv1, ?_⟩
        · rw [hpatch2, hst2]
          dsimp only
          rw [List.append_assoc]
          rfl
        · rw [htr2, hastC]
        · intro rest
          rw [show (it :: tl2) ++ rest = it :: (tl2 ++ rest) from rfl]
          rw [hstep (tl2 ++ rest), happ2 rest]
      case neg =>
        rw [if_neg hguard] at hrun
        rw [not_or] at hguard
        obtain ⟨hg1, hg2⟩ := hguard
        have hkne : k ≠ ExitKind.atEnd := by
          intro hk
          have := sp8 hk
          omega
        have h9 := sp9 hkne
        obtain ⟨h9a, h9b, h9c, h9d⟩ := h9
        set st3 : GenSt :=
          { scan := s1.scan, len := s1.len, pos := s1.pos,
            lastscan := st.lastscan, lastpos := st.lastpos,
            lastoffset := st.lastoffset, oldcrc := st.oldcrc,
            newcrc := st.newcrc, patch := st.patch,
            exits := st.exits ++ [(k, false)] } with hst3
        have hinv3 : InvO buf nw n scansize blockStart st3 ast := by
          refine ⟨iv1, iv2, iv3, iv4, iv5, iv6, iv7, iv8, iv9, iv10, iv11,
            ?_, ?_, ?_, ?_, sp5, iv17, iv18, sp6, ?_⟩
          · dsimp only
            omega
          · dsimp only
            omega
          · dsimp only
            intro h
            omega
          · dsimp only
            intro h
            exact absurd h hg2
          · dsimp only
            omega
        obtain ⟨tl2, ast1, hpatch2, hsc1, hls1, htr2, hinv1, happ2⟩ :=
          ih st3 ast hinv3 st1 hrun
        refine ⟨tl2, ast1, ?_, hsc1, hls1, htr2, hinv1, happ2⟩
        rw [hpatch2]

/-- The all-zero terminator ends the applier run: success exactly when the
bytes written equal the header size, with the temp file unlinked in
directory mode. -/
theorem apply_term_step (dirMode : Bool) (hdrSize : Nat) (rest : List PItem)
    (st : ApSt) :
    ddelta_apply dirMode hdrSize (termItem :: rest) st =
      ((if st.written = hdrSize then .ok () else .error .patchShort),
       if dirMode then { st with tmpExists := false } else st) := by
  rw [ddelta_apply]
  rw [if_pos ⟨rfl, rfl, rfl⟩]

/-- The flush the generator emits at a block end, applied from a state
simulating the block-end generator state: the temp file content (exactly
new[B, scansize)) is promoted and restored over old[B, scansize), the
running CRCs and temp file reset, and the trace records matching CRC
pairs. -/
theorem apply_flush_at_block_end (hdrSize : Nat) (rest : List PItem)
    (buf nw : List Nat) (n scansize B : Int) (st1 : GenSt) (ast1 : ApSt)
    (hinv : InvO buf nw n scansize B st1 ast1)
    (hls : st1.lastscan = scansize)
    (hq : scansize ≤ (nw.length : Int)) :
    ddelta_apply true hdrSize
      ({ f1 := st1.oldcrc, f2 := st1.newcrc, seek := DDELTA_FLUSH,
         payload := [] } :: rest) ast1 =
    ddelta_apply true hdrSize rest
      { old := writeAt buf B.toNat (slice nw B scansize),
        opos := st1.lastpos,
        written := ast1.written,
        oldcrc := 0, out := [], tmpExists := true, backups := [],
        trace := ast1.trace ++
          [(st1.oldcrc, st1.oldcrc, st1.newcrc, st1.newcrc)] } := by
  obtain ⟨jv1, jv2, jv3, jv4, jv5, jv6, jv7, jv8, jv9, jv10, jv11, jv12,
    jv13, jv14, jv15, jv16, jv17, jv18, jv19, jv20⟩ := hinv
  have hlen : ((ast1.out.length : Nat) : Int) = st1.lastscan - B := by
    rw [jv4]
    exact slice_length nw B st1.lastscan jv10 jv11 (by omega)
  rw [apply_flush_step hdrSize rest ast1
    { f1 := st1.oldcrc, f2 := st1.newcrc, seek := DDELTA_FLUSH,
      payload := [] }
    jv5.symm rfl (by rw [jv4]; exact jv8.symm) jv6 (by omega)]
  rw [show (((ast1.written : Nat) : Int) -
      ((ast1.out.length : Nat) : Int)).toNat = B.toNat from by omega]
  rw [jv1, jv4, hls, jv2, jv5]

/-- A prefix followed by the adjacent slice is the longer prefix. -/
theorem take_append_slice (l : List Nat) (a b : Int) (h0 : 0 ≤ a)
    (hab : a ≤ b) (hb : b ≤ (l.length : Int)) :
    l.take a.toNat ++ slice l a b = l.take b.toNat := by
  unfold slice
  have h1 : l.take a.toNat = (l.take b.toNat).take a.toNat := by
    rw [List.take_take, min_eq_left (by omega)]
  rw [h1]
  exact List.take_append_drop _ _

/-- Simulation of the whole block loop: a successful generator run produces
a record tail that drives the applier (in directory mode, from any state
satisfying the block invariant) to success, leaves the first newsize bytes
of the old stream equal to new, and only ever appends trace entries whose
CRC pairs agree. -/
theorem blockLoop_sim (nw : List Nat) (newsize bsz : Int) (hdrSize : Nat)
    (hbyte : ∀ x ∈ nw, x < 256)
    (hhdr : (hdrSize : Int) = newsize)
    (hnewI : newsize ≤ INT32MAX) :
    ∀ (fuel : Nat) (b : BlockSt) (ast : ApSt),
    InvB nw newsize bsz b ast →
    ∀ res, blockLoop nw newsize bsz fuel b = .ok res →
    ∃ tl, res.1 = b.g.patch ++ tl ∧
      (ddelta_apply true hdrSize tl ast).1 = .ok () ∧
      (ddelta_apply true hdrSize tl ast).2.old.take hdrSize = nw ∧
      ((∀ t ∈ ast.trace, t.1 = t.2.1 ∧ t.2.2.1 = t.2.2.2) →
        ∀ t ∈ (ddelta_apply true hdrSize tl ast).2.trace,
          t.1 = t.2.1 ∧ t.2.2.1 = t.2.2.2) := by
  intro fuel
  induction fuel with
  | zero =>
    intro b ast hinv res hrun
    rw [blockLoop] at hrun
    exact Except.noConfusion hrun
  | succ m ih =>
    intro b ast hinv res hrun
    obtain ⟨kv1, kv2, kv3, kv4, kv5, kv6, kv7, kv8, kv9, kv10, kv11, kv12,
      kv13, kv14, kv15, kv16, kv17, kv18, kv19, kv20, kv21, kv22⟩ := hinv
    rw [blockLoop] at hrun
    dsimp only at hrun
    set g0 : GenSt :=
      { scan := b.g.scan, len := 0, pos := b.g.pos,
        lastscan := b.g.lastscan, lastpos := b.g.lastpos,
        lastoffset := b.g.lastoffset, oldcrc := 0, newcrc := 0,
        patch := b.g.patch, exits := b.g.exits } with hg0
    rcases hout : outerLoop b.buf nw b.oldsize b.scansize (suffixArray b.buf)
        (b.scansize.toNat + 2) g0 with e | st1
    · rw [hout] at hrun
      dsimp only at hrun
      exact Except.noConfusion hrun
    · rw [hout] at hrun
      dsimp only at hrun
      have hInvO : InvO b.buf nw b.oldsize b.scansize b.g.lastscan g0 ast := by
        refine ⟨kv1, kv3, kv4, ?_, kv7, kv8, kv9, ?_, kv12, kv13, le_refl _,
          ?_, ?_, ?_, ?_, ?_, kv17, kv18, kv19, ?_⟩
        · dsimp only
          rw [kv6, slice_self]
        · dsimp only
          rw [slice_self]
          decide
        · dsimp only
          omega
        · dsimp only
          omega
        · dsimp only
          intro h
          omega
        · dsimp only
          intro h
          omega
        · dsimp only
          omega
        · dsimp only
          omega
      have hsim := outerLoop_sim b.buf nw b.oldsize b.scansize b.g.lastscan
        hdrSize hbyte kv2 kv21 (by omega) (by omega)
        (b.scansize.toNat + 2) g0 ast hInvO st1 hout
      obtain ⟨tl, ast1, hpatch, hscan1, hlast1, htr1, hinvO1, happly⟩ := hsim
      have hj := hinvO1
      obtain ⟨jv1, jv2, jv3, jv4, jv5, jv6, jv7, jv8, jv9, jv10, jv11, jv12,
        jv13, jv14, jv15, jv16, jv17, jv18, jv19, jv20⟩ := hj
      set fl : PItem :=
        { f1 := st1.oldcrc, f2 := st1.newcrc, seek := DDELTA_FLUSH,
          payload := [] } with hfl
      set a2 : ApSt :=
        { old := writeAt b.buf (b.g.lastscan).toNat
            (slice nw b.g.lastscan b.scansize),
          opos := st1.lastpos,
          written := ast1.written,
          oldcrc := 0, out := [], tmpExists := true, backups := [],
          trace := ast1.trace ++
            [(st1.oldcrc, st1.oldcrc, st1.newcrc, st1.newcrc)] } with ha2
      have hlen2 : ((slice nw b.g.lastscan b.scansize).length : Int) =
          b.scansize - b.g.lastscan :=
        slice_length nw b.g.lastscan b.scansize kv13 kv14 (by omega)
      have hflush : ∀ (r : List PItem),
          ddelta_apply true hdrSize (fl :: r) ast1 =
          ddelta_apply true hdrSize r a2 := fun r =>
        apply_flush_at_block_end hdrSize r b.buf nw b.oldsize b.scansize
          b.g.lastscan st1 ast1 hinvO1 hlast1 (by omega)
      by_cases hgoto : st1.scan < newsize
      case neg =>
        rw [if_neg hgoto] at hrun
        injection hrun with hres
        subst hres
        have hse : b.scansize = newsize := by omega
        have hwr : ast1.written = hdrSize := by omega
        have hch : ddelta_apply true hdrSize (tl ++ [fl, termItem]) ast =
            (.ok (), { a2 with tmpExists := false }) := by
          rw [happly, hflush, apply_term_step, if_pos hwr]
          rfl
        refine ⟨tl ++ [fl, termItem], ?_, ?_, ?_, ?_⟩
        · dsimp only
          rw [hpatch]
          dsimp only
          rw [List.append_assoc]
        · rw [hch]
        · rw [hch]
          dsimp only
          rw [show hdrSize = (b.g.lastscan).toNat +
            (slice nw b.g.lastscan b.scansize).length from by omega]
          rw [writeAt_take_full _ _ _ (by omega)]
          rw [kv10, take_append_slice nw _ _ kv13 kv14 (by omega)]
          rw [show b.scansize.toNat = nw.length from by omega,
            List.take_length]
        · rw [hch]
          intro hP t ht
          dsimp only at ht
          rw [htr1] at ht
          rcases List.mem_append.mp ht with h | h
          · exact hP t h
          · have het : t = (st1.oldcrc, st1.oldcrc, st1.newcrc,
                st1.newcrc) := by
              simpa using h
            rw [het]
            exact ⟨rfl, rfl⟩
      case pos =>
        rw [if_pos hgoto] at hrun
        have hscanlt : b.scansize < newsize := by omega
        have hbsz : bsz > 0 := by
          by_contra hbz
          rw [if_neg (by omega)] at kv11
          omega
        rw [if_pos hbsz] at kv11
        have hseq : b.scansize = b.g.lastscan + bsz := by omega
        set bN : BlockSt :=
          { buf := writeAt b.buf (b.scansize - bsz).toNat
              (slice nw (b.scansize - bsz) b.scansize),
            oldsize := max b.oldsize b.scansize,
            scansize := min (b.scansize + bsz) newsize,
            g := { scan := st1.scan, len := st1.len, pos := st1.pos,
                   lastscan := st1.lastscan, lastpos := st1.lastpos,
                   lastoffset := st1.lastoffset, oldcrc := st1.oldcrc,
                   newcrc := st1.newcrc,
                   patch := st1.patch ++ [fl],
                   exits := st1.exits } } with hbN
        have hoffeq : b.scansize - bsz = b.g.lastscan := by omega
        have hInvB2 : InvB nw newsize bsz bN a2 := by
          refine ⟨?_, ?_, rfl, jv3, ?_, rfl, rfl, rfl, rfl, ?_, ?_, jv9, ?_,
            ?_, ?_, ?_, jv17, ?_, jv19, ?_, ?_, kv22⟩
          · dsimp only
            rw [hoffeq]
          · dsimp only
            rw [hoffeq, writeAt_length, Nat.cast_max]
            congr 1 <;> omega
          · dsimp only
            omega
          · dsimp only
            rw [hoffeq, hlast1]
            rw [show b.scansize.toNat = (b.g.lastscan).toNat +
              (slice nw b.g.lastscan b.scansize).length from by omega]
            rw [writeAt_take_full _ _ _ (by omega)]
            rw [kv10, take_append_slice nw _ _ kv13 kv14 (by omega)]
            congr 1
            omega
          · dsimp only
            rw [if_pos hbsz, hlast1]
          · dsimp only
            omega
          · dsimp only
            omega
          · dsimp only
            omega
          · dsimp only
            omega
          · dsimp only
            omega
          · dsimp only
            omega
          · dsimp only
            omega
        obtain ⟨tl2, hpatch2, hok2, hold2, htrp2⟩ := ih bN a2 hInvB2 res hrun
        refine ⟨tl ++ (fl :: tl2), ?_, ?_, ?_, ?_⟩
        · rw [hpatch2]
          dsimp only
          rw [hpatch]
          dsimp only
          rw [List.append_assoc, List.append_assoc]
          rfl
        · rw [happly, hflush]
          exact hok2
        · rw [happly, hflush]
          exact hold2
        · intro hP
          rw [happly, hflush]
          refine htrp2 ?_
          intro t ht
          dsimp only at ht
          rw [htr1] at ht
          rcases List.mem_append.mp ht with h | h
          · exact hP t h
          · have het : t = (st1.oldcrc, st1.oldcrc, st1.newcrc,
              st1.newcrc) := by
              simpa using h
            rw [het]
            exact ⟨rfl, rfl⟩

/-! ## Claim theorems: generator commit checks -/

/-- C8: after forward extension, backward extension and overlap resolution
(lenf += lens - overlap and lenb -= lens when lastscan + lenf > scan - lenb),
the post-condition lenf ≥ 0 and (scan - lenb) - (lastscan + lenf) ≥ 0 holds
whenever the generator's own loop invariants (lastscan ≤ scan, 0 ≤ pos) do;
commitStep checks exactly this condition and would fail with ALGO otherwise,
so that failure branch is unreachable: its guard is false. -/
theorem claim8_extension_postcondition (ci : CommitIn)
    (hls : ci.lastscan ≤ ci.scan) (hpos : 0 ≤ ci.pos) :
    0 ≤ (resolveExt ci).1 ∧
    0 ≤ (ci.scan - (resolveExt ci).2) - (ci.lastscan + (resolveExt ci).1) ∧
    ¬((resolveExt ci).1 < 0 ∨
      (ci.scan - (resolveExt ci).2) - (ci.lastscan + (resolveExt ci).1) < 0) := by
  have h := resolveExt_props ci hls hpos
  exact ⟨h.1, h.2.2.2.2.2, by omega⟩

/-- C8 witness: the post-condition holds at a concrete commit input. -/
theorem claim8_extension_postcondition_witness :
    0 ≤ (resolveExt exCommitIn).1 ∧
    0 ≤ (exCommitIn.scan - (resolveExt exCommitIn).2) -
        (exCommitIn.lastscan + (resolveExt exCommitIn).1) ∧
    ¬((resolveExt exCommitIn).1 < 0 ∨
      (exCommitIn.scan - (resolveExt exCommitIn).2) -
      (exCommitIn.lastscan + (resolveExt exCommitIn).1) < 0) :=
  claim8_extension_postcondition exCommitIn (by decide) (by decide)

/-- C4: under the generator's invariants, committing a match fails with ALGO
(writing no record) exactly when diff = lenf or
extra = (scan - lenb) - (lastscan + lenf) overflows its unsigned 32-bit wire
field, or seek = (pos - lenb) - (lastpos + lenf) does not fit a signed 32-bit
field, or seek equals the flush sentinel; and every record it does emit
carries exactly those field values, with seek ≠ DDELTA_FLUSH. -/
theorem claim4_commit_field_checks (ci : CommitIn)
    (hls : ci.lastscan ≤ ci.scan) (hpos : 0 ≤ ci.pos) :
    (commitStep ci = .error .algo ↔
      ((MOD32 : Int) ≤ (resolveExt ci).1 ∨
       (MOD32 : Int) ≤ (ci.scan - (resolveExt ci).2) -
         (ci.lastscan + (resolveExt ci).1) ∨
       (ci.pos - (resolveExt ci).2) - (ci.lastpos + (resolveExt ci).1) <
         -2147483648 ∨
       2147483648 ≤ (ci.pos - (resolveExt ci).2) -
         (ci.lastpos + (resolveExt ci).1) ∨
       (ci.pos - (resolveExt ci).2) - (ci.lastpos + (resolveExt ci).1) =
         DDELTA_FLUSH)) ∧
    (∀ item lenf lenb, commitStep ci = .ok (item, lenf, lenb) →
       item.f1 = (resolveExt ci).1.toNat ∧
       item.f2 = ((ci.scan - (resolveExt ci).2) -
         (ci.lastscan + (resolveExt ci).1)).toNat ∧
       item.seek = (ci.pos - (resolveExt ci).2) -
         (ci.lastpos + (resolveExt ci).1) ∧
       item.seek ≠ DDELTA_FLUSH) := by
  have hp := resolveExt_props ci hls hpos
  have hcond : ((resolveExt ci).1 % (MOD32 : Int) ≠ (resolveExt ci).1 ∨
      ((ci.scan - (resolveExt ci).2) - (ci.lastscan + (resolveExt ci).1)) %
        (MOD32 : Int) ≠
        (ci.scan - (resolveExt ci).2) - (ci.lastscan + (resolveExt ci).1) ∨
      wrapS32 ((ci.pos - (resolveExt ci).2) -
        (ci.lastpos + (resolveExt ci).1)) = DDELTA_FLUSH ∨
      wrapS32 ((ci.pos - (resolveExt ci).2) -
        (ci.lastpos + (resolveExt ci).1)) ≠
        (ci.pos - (resolveExt ci).2) - (ci.lastpos + (resolveExt ci).1)) ↔
      ((MOD32 : Int) ≤ (resolveExt ci).1 ∨
       (MOD32 : Int) ≤ (ci.scan - (resolveExt ci).2) -
         (ci.lastscan + (resolveExt ci).1) ∨
       (ci.pos - (resolveExt ci).2) - (ci.lastpos + (resolveExt ci).1) <
         -2147483648 ∨
       2147483648 ≤ (ci.pos - (resolveExt ci).2) -
         (ci.lastpos + (resolveExt ci).1) ∨
       (ci.pos - (resolveExt ci).2) - (ci.lastpos + (resolveExt ci).1) =
         DDELTA_FLUSH) := by
    unfold wrapS32 DDELTA_FLUSH MOD32
    omega
  unfold commitStep
  dsimp only
  rw [if_neg (by omega)]
  split_ifs with hw
  · refine ⟨iff_of_true rfl (hcond.mp hw), ?_⟩
    intro item lenf lenb h
    exact absurd h (by simp)
  · refine ⟨iff_of_false (by simp) (fun hs => hw (hcond.mpr hs)), ?_⟩
    intro item lenf lenb h
    injection h with h1
    injection h1 with ha hb
    subst ha
    refine ⟨rfl, rfl, rfl, ?_⟩
    intro hfl
    exact hw (hcond.mpr (Or.inr (Or.inr (Or.inr (Or.inr hfl)))))

/-- C4 witness: at a concrete commit input the no-overflow case emits the
record with the computed fields and a non-sentinel seek. -/
theorem claim4_commit_field_checks_witness :
    ((commitStep exCommitIn = .error .algo ↔
      ((MOD32 : Int) ≤ (resolveExt exCommitIn).1 ∨
       (MOD32 : Int) ≤ (exCommitIn.scan - (resolveExt exCommitIn).2) -
         (exCommitIn.lastscan + (resolveExt exCommitIn).1) ∨
       (exCommitIn.pos - (resolveExt exCommitIn).2) -
         (exCommitIn.lastpos + (resolveExt exCommitIn).1) < -2147483648 ∨
       2147483648 ≤ (exCommitIn.pos - (resolveExt exCommitIn).2) -
         (exCommitIn.lastpos + (resolveExt exCommitIn).1) ∨
       (exCommitIn.pos - (resolveExt exCommitIn).2) -
         (exCommitIn.lastpos + (resolveExt exCommitIn).1) = DDELTA_FLUSH)) ∧
    (∀ item lenf lenb, commitStep exCommitIn = .ok (item, lenf, lenb) →
       item.f1 = (resolveExt exCommitIn).1.toNat ∧
       item.f2 = ((exCommitIn.scan - (resolveExt exCommitIn).2) -
         (exCommitIn.lastscan + (resolveExt exCommitIn).1)).toNat ∧
       item.seek = (exCommitIn.pos - (resolveExt exCommitIn).2) -
         (exCommitIn.lastpos + (resolveExt exCommitIn).1) ∧
       item.seek ≠ DDELTA_FLUSH)) :=
  claim4_commit_field_checks exCommitIn (by decide) (by decide)

/-- C9 (amended): in an inner scan loop iteration that passes the two break
tests, the counter num_less_than_eight becomes num8 + 1 exactly when,
relative to the previous iteration, prev_len - 8 ≤ len ≤ prev_len,
prev_oldscore - 8 ≤ oldscore ≤ prev_oldscore, prev_pos ≤ pos ≤ prev_pos + 8
and oldscore ≤ len ≤ oldscore + 8 all hold, becomes 0 otherwise, and the loop
breaks as soon as the counter exceeds 100 (whether a commit follows the break
additionally requires len ≠ oldscore or scan = scansize; see the
counterexample for a stall break without a commit). -/
theorem claim9_stall_guard (c : GenCtx) (s : ScanSt)
    (len pos scsc oldscore oldscore2 : Int) (n8 : Nat)
    (hsearch : searchFull c.I c.buf
      ((c.nw.take c.scansize.toNat).drop s.scan.toNat) 0 (c.oldsize - 1) =
      (len, pos))
    (hscore : scoreAdd c.buf c.nw c.oldsize c.lastoffset
      ((s.scan + len - s.scsc).toNat) s.scsc s.oldscore = (scsc, oldscore))
    (hnb : ¬((len = oldscore ∧ len ≠ 0) ∨ len > oldscore + 8))
    (hos2 : oldscore2 = if s.scan + c.lastoffset < c.oldsize ∧
        idx c.buf (s.scan + c.lastoffset) = idx c.nw s.scan
      then oldscore - 1 else oldscore)
    (hn8 : n8 = if s.len - 8 ≤ len ∧ len ≤ s.len ∧
        s.oldscore - 8 ≤ oldscore2 ∧ oldscore2 ≤ s.oldscore ∧
        s.pos ≤ pos ∧ pos ≤ s.pos + 8 ∧
        oldscore2 ≤ len ∧ len ≤ oldscore2 + 8
      then s.num8 + 1 else 0) :
    scanIter c s = if n8 > 100
      then .brk .stall { scan := s.scan, scsc := scsc, len := len, pos := pos,
                         oldscore := oldscore2, num8 := n8 }
      else .step { scan := s.scan + 1, scsc := scsc, len := len, pos := pos,
                   oldscore := oldscore2, num8 := n8 } := by
  unfold scanIter
  dsimp only
  rw [hsearch]
  dsimp only
  rw [hscore]
  dsimp only
  rw [if_neg hnb]
  subst hos2
  subst hn8
  rfl

/-- C9 witness: a concrete quiet iteration increments the counter to 1 and
continues. -/
theorem claim9_stall_guard_witness :
    scanIter exGenCtx exScanSt = if 1 > 100
      then .brk .stall { scan := exScanSt.scan, scsc := 0, len := 0, pos := 0,
                         oldscore := 0, num8 := 1 }
      else .step { scan := exScanSt.scan + 1, scsc := 0, len := 0, pos := 0,
                   oldscore := 0, num8 := 1 } :=
  claim9_stall_guard exGenCtx exScanSt 0 0 0 0 0 1
    (by decide) (by decide) (by decide) (by decide) (by decide)

/-- C9 counterexample: a stall break does not force a commit.  With
old = [1] and new = 102 zero bytes, no byte of new occurs in old, so len and
oldscore sit at 0 for 101 straight iterations; the counter passes 100 and the
loop breaks, but len = oldscore and scan < scansize, so no record is
committed (the exit trace records the stall with commit = false). -/
theorem claim9_stall_commit_counterexample :
    (match ddelta_generate [1] (List.replicate 102 0) 0 with
     | .ok r => r.2.2.contains (.stall, false)
     | .error _ => false) = true := by rfl

/-! ## Claim theorems: the wire codec -/

/-- C5: for every signed 32-bit value v (the reserved flush sentinel
included), reading the written seek field back recovers v exactly:
ddelta_from_unsigned (ddelta_to_unsigned v) = v, where to_unsigned maps
nonnegative v to itself and negative v to the two's-complement pattern
~(-v)+1, and from_unsigned inverts it; boundary values, INT32_MIN among
them, round-trip. -/
theorem claim5_seek_fold_roundtrip (v : Int)
    (h1 : -2147483648 ≤ v) (h2 : v < 2147483648) :
    ddelta_from_unsigned (ddelta_to_unsigned v) = v := by
  unfold ddelta_from_unsigned ddelta_to_unsigned wrapS32 MOD32
  dsimp only
  split_ifs <;> omega

/-- C5 witness: INT32_MIN, the worst boundary value, round-trips. -/
theorem claim5_seek_fold_roundtrip_witness :
    ddelta_from_unsigned (ddelta_to_unsigned (-2147483648)) = -2147483648 :=
  claim5_seek_fold_roundtrip (-2147483648) (by norm_num) (by norm_num)

/-! ## Claim theorems: the applier's local steps -/

/-- C2: on a terminator record (diff == 0, extra == 0, seek == 0) the applier
flushes and closes the destination (invisible in the model), unlinks the temp
file when in directory mode, and returns success exactly when the cumulative
bytes written equal the header's new_file_size, and PATCH_SHORT otherwise. -/
theorem claim2_terminator (dirMode : Bool) (hdrSize : Nat) (rest : List PItem)
    (st : ApSt) :
    ddelta_apply dirMode hdrSize (termItem :: rest) st =
      ((if st.written = hdrSize then .ok () else .error .patchShort),
       if dirMode then { st with tmpExists := false } else st) := by
  unfold ddelta_apply termItem
  simp

/-- C10: a successful checkpoint restore leaves the old stream's read
position unchanged: copy_file records the offset on entry, seeks to the
block's start, writes the backup's bytes, and seeks back to the recorded
offset, so the returned cursor equals the cursor at entry. -/
theorem claim10_restore_preserves_cursor (bak old : List Nat)
    (opos start : Int) (endv crc0 : Nat) (res : List Nat × Int × Nat)
    (h : copyFile bak old opos start endv crc0 = .ok res) :
    res.2.1 = opos := by
  unfold copyFile at h
  dsimp only at h
  split_ifs at h
  cases h
  rfl

/-- C10 witness: a concrete successful restore keeps the cursor at 7. -/
theorem claim10_restore_preserves_cursor_witness :
    ((copyFile [1, 2, 3] [9, 9, 9, 9] 7 1 3 0).toOption.map
        (fun r => r.2.1)) = some 7 := by
  have h : copyFile [1, 2, 3] [9, 9, 9, 9] 7 1 3 0 =
      .ok ([9, 1, 2, 9], 7, crc32 0 [1, 2]) := by rfl
  rw [h]
  exact congrArg some
    (claim10_restore_preserves_cursor [1, 2, 3] [9, 9, 9, 9] 7 1 3 0 _ h)

/-- C6 counterexample: the applier does not tolerate a cursor driven below
zero.  A patch whose first normal record has diff = 0, extra = 0, seek = -1
drives the cumulative old cursor to -1; fseek(old, -1, SEEK_CUR) from
position 0 would move to a negative offset, which POSIX rejects, and
ddelta_apply returns OLD_IO rather than proceeding. -/
theorem claim6_counterexample :
    (ddelta_apply false 0 [{ f1 := 0, f2 := 0, seek := -1, payload := [] }]
        (initSt [])).1 = .error .oldIo := by rfl

/-- C6 amended: a normal record may seek the old cursor backwards (or beyond
the end of the old stream) freely so long as the resulting cursor stays
nonnegative; such a seek does not fail and the applier proceeds with the next
record.  Only a seek whose resulting cursor would be negative fails (with
OLD_IO, refuting the transiently-below-zero reading). -/
theorem claim6_seek_tolerance (dirMode : Bool) (hdrSize : Nat) (it : PItem)
    (rest : List PItem) (st : ApSt)
    (hterm : ¬(it.f1 = 0 ∧ it.f2 = 0 ∧ it.seek = 0))
    (hfl : it.seek ≠ DDELTA_FLUSH)
    (hp1 : it.f1 ≤ it.payload.length)
    (hp2 : it.f2 ≤ it.payload.length - it.f1)
    (hpos : 0 ≤ st.opos)
    (hread : st.opos + it.f1 ≤ st.old.length)
    (hseek : 0 ≤ st.opos + it.f1 + it.seek) :
    ddelta_apply dirMode hdrSize (it :: rest) st =
      ddelta_apply dirMode hdrSize rest
        { st with
          opos := st.opos + it.f1 + it.seek,
          oldcrc := crc32 st.oldcrc ((st.old.drop st.opos.toNat).take it.f1),
          out := st.out ++
            List.zipWith (fun o p => (o + p) % 256)
              ((st.old.drop st.opos.toNat).take it.f1)
              (it.payload.take it.f1) ++
            (it.payload.drop it.f1).take it.f2,
          written := st.written + it.f1 + it.f2 } := by
  rw [ddelta_apply]
  rw [if_neg hterm, if_neg hfl]
  have hlen2 : (it.payload.drop it.f1).length = it.payload.length - it.f1 :=
    List.length_drop it.f1 it.payload
  rw [if_neg (by omega), if_neg (by omega), if_neg (by omega), if_neg (by omega)]

/-- C6 amended witness: a record with a backward seek (seek = -1 from cursor
1) is processed without error and apply proceeds to the next record. -/
theorem claim6_seek_tolerance_witness :
    ddelta_apply false 0
        [{ f1 := 1, f2 := 0, seek := -1, payload := [4] }] (initSt [5, 6]) =
      ddelta_apply false 0 []
        { initSt [5, 6] with
          opos := 0,
          oldcrc := crc32 0 [5],
          out := [] ++ List.zipWith (fun o p => (o + p) % 256) [5] [4] ++ [],
          written := 1 } := by
  have h := claim6_seek_tolerance false 0
    { f1 := 1, f2 := 0, seek := -1, payload := [4] } [] (initSt [5, 6])
    (by decide) (by decide) (by decide) (by decide) (by decide) (by decide)
    (by decide)
  exact h.trans (by rfl)

/-- C7: at a flush in directory mode, when a backup file keyed by the entry's
newcrc exists (the just-promoted temp file included), the applier copies its
bytes into the old stream over [start, bytes_written) while recomputing a
CRC; if the recomputed CRC differs from the entry's newcrc the applier
returns NEW_IO and the backup file is not deleted (its unlink only happens
after the CRC check passes). -/
theorem claim7_restore_crc_guard (hdrSize : Nat) (it : PItem)
    (rest : List PItem) (st : ApSt) (bak : List Nat)
    (hflush : it.seek = DDELTA_FLUSH)
    (hbak : (if st.oldcrc = it.f1
             then (it.f2, st.out) :: fsErase st.backups it.f2
             else st.backups).lookup it.f2 = some bak)
    (hstart : 0 ≤ (st.written : Int) - st.out.length)
    (hlen : st.out.length ≤ bak.length)
    (hcrc : crc32 0 (bak.take st.out.length) ≠ it.f2) :
    (ddelta_apply true hdrSize (it :: rest) st).1 = .error .newIo ∧
    (ddelta_apply true hdrSize (it :: rest) st).2.backups.lookup it.f2 =
      some bak := by
  have hcount : (((st.written : Int) -
      ((st.written : Int) - (st.out.length : Int))).toNat) = st.out.length := by
    omega
  have hcf : copyFile bak st.old st.opos
      ((st.written : Int) - (st.out.length : Int)) st.written 0 =
      .ok (writeAt st.old ((st.written : Int) - (st.out.length : Int)).toNat
             (bak.take st.out.length),
           st.opos, crc32 0 (bak.take st.out.length)) := by
    unfold copyFile
    rw [if_neg (by omega)]
    dsimp only
    rw [hcount]
    rw [if_neg (by omega)]
  rw [ddelta_apply]
  rw [if_neg (by intro h; rw [hflush] at h; exact absurd h.2.2 (by decide))]
  rw [if_pos hflush]
  rw [if_neg (by decide)]
  dsimp only
  rw [hbak]
  dsimp only
  rw [hcf]
  dsimp only
  rw [if_pos hcrc]
  exact ⟨rfl, hbak⟩

/-- C7 witness: a stale backup whose content no longer hashes to the entry's
newcrc makes the flush fail with NEW_IO and survives in the store. -/
theorem claim7_restore_crc_guard_witness :
    (ddelta_apply true 9
        [{ f1 := 5, f2 := 1, seek := DDELTA_FLUSH, payload := [] }]
        { old := [], opos := 0, written := 0, oldcrc := 0, out := [],
          tmpExists := true, backups := [(1, [])], trace := [] }).1 =
      .error .newIo ∧
    (ddelta_apply true 9
        [{ f1 := 5, f2 := 1, seek := DDELTA_FLUSH, payload := [] }]
        { old := [], opos := 0, written := 0, oldcrc := 0, out := [],
          tmpExists := true, backups := [(1, [])], trace := [] }).2.backups.lookup 1 =
      some [] :=
  claim7_restore_crc_guard 9
    { f1 := 5, f2 := 1, seek := DDELTA_FLUSH, payload := [] } []
    { old := [], opos := 0, written := 0, oldcrc := 0, out := [],
      tmpExists := true, backups := [(1, [])], trace := [] } []
    rfl (by rfl) (by decide) (by decide) (by decide)

end DDelta
